import Mathlib

/-
Verification of the orchestration layer of the rustfuscator project
(`obfuscator_cli/src/project_mode.rs`).

The filesystem is modelled as an association list from paths (lists of
path components) to file contents (strings).  External effects are made
explicit:

* the transformation engine (`crate::processor::process_file`) and the
  `rustfmt` binary are oracle parameters;
* console output is modelled as a list of `Event`s;
* `anyhow::Result` is modelled by an error field that, once set, makes
  every later step a no-op (mirroring `?`-propagation), while the
  filesystem mutations already performed persist.

TOML manifests are modelled by a formatting-preserving, line-based
document model of the `toml_edit` crate covering the subset of TOML that
`patch_cargo_toml` interacts with (top-level tables written as
`[name]` headers, `key = value` entries, blank and comment lines).
-/

set_option autoImplicit false

namespace Rustfuscator

/-! ## Splitting text into lines

File contents are `String`s.  The TOML model works line by line, so we
split the character list at `'\n'` and keep every raw line; joining the
raw lines back with `'\n'` restores the text exactly. -/

/-- Prepend a character to the first chunk of a split. -/
def consHd (c : Char) : List (List Char) → List (List Char)
  | [] => [[c]]
  | l :: ls => (c :: l) :: ls

/-- Split a character list at every newline; always returns at least one line. -/
def splitNl : List Char → List (List Char)
  | [] => [[]]
  | c :: cs => if c = '\n' then [] :: splitNl cs else consHd c (splitNl cs)

/-- Join lines with newlines; left inverse of `splitNl`. -/
def joinNl : List (List Char) → List Char
  | [] => []
  | [l] => l
  | l :: l2 :: ls => l ++ '\n' :: joinNl (l2 :: ls)

theorem splitNl_ne_nil (cs : List Char) : splitNl cs ≠ [] := by
  induction cs with
  | nil => simp [splitNl]
  | cons c cs ih =>
    simp only [splitNl]
    split
    · simp
    · cases h : splitNl cs <;> simp [consHd]

theorem joinNl_cons_cons (l l2 : List Char) (ls : List (List Char)) :
    joinNl (l :: l2 :: ls) = l ++ '\n' :: joinNl (l2 :: ls) := rfl

theorem joinNl_splitNl (cs : List Char) : joinNl (splitNl cs) = cs := by
  induction cs with
  | nil => simp [splitNl, joinNl]
  | cons c cs ih =>
    simp only [splitNl]
    split
    · rename_i hc
      cases h : splitNl cs with
      | nil => exact absurd h (splitNl_ne_nil cs)
      | cons l ls =>
        rw [h] at ih
        rw [joinNl_cons_cons, hc, List.nil_append, ih]
    · cases h : splitNl cs with
      | nil => exact absurd h (splitNl_ne_nil cs)
      | cons l ls =>
        rw [h] at ih
        cases ls with
        | nil => simp [consHd, joinNl] at ih ⊢; exact ih
        | cons l2 ls2 =>
          simp only [consHd, joinNl_cons_cons, List.cons_append]
          rw [joinNl_cons_cons] at ih
          rw [ih]

theorem mem_splitNl_no_nl (cs : List Char) : ∀ l ∈ splitNl cs, '\n' ∉ l := by
  induction cs with
  | nil => simp [splitNl]
  | cons c cs ih =>
    simp only [splitNl]
    split
    · intro l hl
      rcases List.mem_cons.1 hl with h | h
      · simp [h]
      · exact ih l h
    · rename_i hc
      cases h : splitNl cs with
      | nil => exact absurd h (splitNl_ne_nil cs)
      | cons l0 ls =>
        intro l hl
        simp only [consHd] at hl
        rcases List.mem_cons.1 hl with h1 | h1
        · subst h1
          intro hmem
          rcases List.mem_cons.1 hmem with h2 | h2
          · exact hc h2.symm
          · exact ih l0 (by rw [h]; exact List.mem_cons_self _ _) h2
        · exact ih l (by rw [h]; exact List.mem_cons.2 (Or.inr h1))

theorem splitNl_of_no_nl {l : List Char} (h : '\n' ∉ l) : splitNl l = [l] := by
  induction l with
  | nil => rfl
  | cons c cs ih =>
    have hc : ¬ c = '\n' := fun hc => h (by simp [hc])
    have hcs : '\n' ∉ cs := fun hm => h (List.mem_cons.2 (Or.inr hm))
    simp only [splitNl, if_neg hc, ih hcs, consHd]

theorem splitNl_append_nl {l : List Char} (cs : List Char) (h : '\n' ∉ l) :
    splitNl (l ++ '\n' :: cs) = l :: splitNl cs := by
  induction l with
  | nil => simp [splitNl]
  | cons c l2 ih =>
    have hc : ¬ c = '\n' := fun hc => h (by simp [hc])
    have hl2 : '\n' ∉ l2 := fun hm => h (List.mem_cons.2 (Or.inr hm))
    simp only [List.cons_append, splitNl, if_neg hc, List.append_eq, ih hl2, consHd]

theorem splitNl_joinNl {L : List (List Char)} (hnl : ∀ l ∈ L, '\n' ∉ l)
    (hne : L ≠ []) : splitNl (joinNl L) = L := by
  induction L with
  | nil => exact absurd rfl hne
  | cons l ls ih =>
    cases ls with
    | nil =>
      simp only [joinNl]
      exact splitNl_of_no_nl (hnl l (List.mem_cons_self _ _))
    | cons l2 ls2 =>
      rw [joinNl_cons_cons,
        splitNl_append_nl _ (hnl l (List.mem_cons_self _ _)),
        ih (fun x hx => hnl x (List.mem_cons.2 (Or.inr hx))) (by simp)]

/-! ## A model of `toml_edit` documents

`patch_cargo_toml` uses `toml_edit::DocumentMut`, a formatting-preserving
TOML document.  We model the subset it touches: a document is a list of
raw lines grouped by `[name]` table headers; lines before the first
header form the top-level (root) table's direct entries.  Raw lines are
preserved verbatim, so serialisation is exact for everything parsed.
The model's parser accepts a subset of TOML (bare keys, plain `[name]`
tables); real `toml_edit` attaches trailing blank lines of a table to
the following header's decor, so insertion positions can differ from the
real crate by whitespace only — no claim depends on that layout. -/

/-- Classification of one manifest line. -/
inductive LineKind where
  | trivia
  | header (name : String)
  | kvpair (key : String)
deriving DecidableEq

/-- Space or tab, the whitespace `toml_edit` strips around keys. -/
def isWsChar (c : Char) : Bool := c = ' ' || c = '\t'

/-- Trim leading and trailing whitespace of a raw line. -/
def trimChars (l : List Char) : List Char :=
  ((l.dropWhile isWsChar).reverse.dropWhile isWsChar).reverse

/-- Characters allowed in a bare TOML key or table name. -/
def validKeyChar (c : Char) : Bool := c.isAlphanum || c = '_' || c = '-'

/-- Classify a raw manifest line: blank/comment, `[name]` header or
`key = value` entry; `none` means the manifest does not parse. -/
def classify (l : List Char) : Option LineKind :=
  match trimChars l with
  | [] => some .trivia
  | c :: rest =>
    if c = '#' then some .trivia
    else if c = '[' then
      if rest.getLast? = some ']' then
        let name := rest.dropLast
        if name ≠ [] ∧ name.all validKeyChar then some (.header (String.mk name))
        else none
      else none
    else if (c :: rest).contains '=' then
      let key := trimChars ((c :: rest).takeWhile (fun c2 => ¬ c2 = '='))
      let v := trimChars (((c :: rest).dropWhile (fun c2 => ¬ c2 = '=')).drop 1)
      if key ≠ [] ∧ key.all validKeyChar ∧ v ≠ [] then
        some (.kvpair (String.mk key))
      else none
    else none

/-- One parsed line inside a table body: trivia or a key/value entry,
with its raw text preserved. -/
inductive TLine where
  | trivia (raw : List Char)
  | kvline (raw : List Char) (key : String)
deriving DecidableEq

/-- Raw text of a parsed line. -/
def TLine.raw : TLine → List Char
  | .trivia r => r
  | .kvline r _ => r

/-- Key of a key/value line. -/
def TLine.key? : TLine → Option String
  | .trivia _ => none
  | .kvline _ k => some k

/-- A `[name]` table: its raw header line and its body lines. -/
structure TSection where
  headerRaw : List Char
  name : String
  lines : List TLine
deriving DecidableEq

/-- A parsed manifest: entries of the top-level table that appear before
any header, then the `[name]` tables in order. -/
structure Doc where
  rootLines : List TLine
  sections : List TSection
deriving DecidableEq

/-- Prepend one classified raw line to a document (the parser works from
the last line backwards, so a header captures the lines below it). -/
def Doc.consLine (raw : List Char) (d : Doc) : Option Doc :=
  match classify raw with
  | none => none
  | some .trivia => some { d with rootLines := .trivia raw :: d.rootLines }
  | some (.kvpair k) => some { d with rootLines := .kvline raw k :: d.rootLines }
  | some (.header n) => some ⟨[], ⟨raw, n, d.rootLines⟩ :: d.sections⟩

/-- Parse a list of raw lines into a document. -/
def parseLines : List (List Char) → Option Doc
  | [] => some ⟨[], []⟩
  | l :: ls => (parseLines ls).bind (Doc.consLine l)

/-- Model of `content.parse::<DocumentMut>()` (line 99): `none` is the
manifest-format error propagated by `?`. -/
def parseToml (s : String) : Option Doc := parseLines (splitNl s.data)

/-- Raw lines of a table, header first. -/
def TSection.raws (s : TSection) : List (List Char) := s.headerRaw :: s.lines.map TLine.raw

/-- Concatenate lists (own definition to keep proofs self-contained). -/
def flat : List (List (List Char)) → List (List Char)
  | [] => []
  | l :: ls => l ++ flat ls

/-- All raw lines of a document in order. -/
def Doc.raws (d : Doc) : List (List Char) :=
  d.rootLines.map TLine.raw ++ flat (d.sections.map TSection.raws)

/-- Model of `doc.to_string()` (line 123): join the raw lines back. -/
def Doc.toText (d : Doc) : String := String.mk (joinNl d.raws)

/-- Does a list of body lines contain an entry for key `k`? -/
def hasKeyLines (k : String) : List TLine → Bool
  | [] => false
  | tl :: tls => tl.key? == some k || hasKeyLines k tls

/-- Raw line of the first entry for key `k` in a table body. -/
def entryRawLines (k : String) : List TLine → Option (List Char)
  | [] => none
  | tl :: tls =>
    match tl.key? with
    | some k2 => if k2 = k then some tl.raw else entryRawLines k tls
    | none => entryRawLines k tls

/-- Does the document contain a `[k]` table? -/
def hasSectionNamed (k : String) : List TSection → Bool
  | [] => false
  | s :: ss => s.name == k || hasSectionNamed k ss

/-- First `[dependencies]` table of the document, if any. -/
def findDeps : List TSection → Option TSection
  | [] => none
  | s :: ss => if s.name = "dependencies" then some s else findDeps ss

/-- Apply `f` to the first `[dependencies]` table. -/
def modifyDeps (f : TSection → TSection) : List TSection → List TSection
  | [] => []
  | s :: ss => if s.name = "dependencies" then f s :: ss else s :: modifyDeps f ss

/-- Model of `DocumentMut::contains_key` / `get(..).is_none()` on the
top-level table: a key is bound either by a direct entry before the
first header or by a `[k]` table. -/
def Doc.containsKey (d : Doc) (k : String) : Bool :=
  hasKeyLines k d.rootLines || hasSectionNamed k d.sections

/-- `TSection.hasKey s k`: model of `deps.contains_key(k)` (lines 116, 119). -/
def TSection.hasKey (s : TSection) (k : String) : Bool := hasKeyLines k s.lines

/-- `TSection.entryRaw s k`: the raw line currently bound to `k`. -/
def TSection.entryRaw (s : TSection) (k : String) : Option (List Char) :=
  entryRawLines k s.lines

/-- First `[dependencies]` table of a document. -/
def Doc.depsSection? (d : Doc) : Option TSection := findDeps d.sections

/-- Raw text toml_edit emits for `deps.insert(k, value(v))`. -/
def mkPairRaw (k v : String) : List Char := (k ++ " = \"" ++ v ++ "\"").data

/-- Model of `deps.insert(k, value(v))` guarded by `contains_key` (lines
116–121): append the new entry at the end of the table if absent. -/
def TSection.ensureKey (s : TSection) (k v : String) : TSection :=
  if s.hasKey k then s
  else { s with lines := s.lines ++ [.kvline (mkPairRaw k v) k] }

/-- Model of `doc["dependencies"] = Item::Table(Table::new())` (line 108):
toml_edit appends the newly created table at the end of the document. -/
def Doc.createDeps (d : Doc) : Doc :=
  { d with sections := d.sections ++ [⟨"[dependencies]".data, "dependencies", []⟩] }

/-- The two guarded inserts of `patch_cargo_toml` (lines 116–121) applied
to the dependencies table. -/
def depsMutation (s : TSection) : TSection :=
  (s.ensureKey "rust_code_obfuscator" "0.2.10").ensureKey "cryptify" "3.1.1"

/-- The per-manifest mutation of `patch_cargo_toml` (lines 107–121):
create `[dependencies]` if the top-level key is absent, fail (`none`)
when the key exists but `as_table_mut` returns `None` (the key is bound
to a non-table value), then insert each required dependency only when
its key is not yet present. -/
def patchDoc (d : Doc) : Option Doc :=
  let d1 := if d.containsKey "dependencies" then d else d.createDeps
  if hasSectionNamed "dependencies" d1.sections then
    some { d1 with sections := modifyDeps depsMutation d1.sections }
  else none

/-! ### Round trip: serialisation is exact -/

theorem raws_of_consLine {raw : List Char} {d d2 : Doc}
    (h : Doc.consLine raw d = some d2) : d2.raws = raw :: d.raws := by
  unfold Doc.consLine at h
  cases hcl : classify raw with
  | none => rw [hcl] at h; exact absurd h (by simp)
  | some k =>
    rw [hcl] at h
    cases k with
    | trivia =>
      simp only [Option.some.injEq] at h
      subst h
      simp [Doc.raws, TLine.raw]
    | kvpair key =>
      simp only [Option.some.injEq] at h
      subst h
      simp [Doc.raws, TLine.raw]
    | header n =>
      simp only [Option.some.injEq] at h
      subst h
      simp [Doc.raws, TSection.raws, flat]

theorem raws_of_parseLines {ls : List (List Char)} {d : Doc}
    (h : parseLines ls = some d) : d.raws = ls := by
  induction ls generalizing d with
  | nil =>
    simp only [parseLines, Option.some.injEq] at h
    subst h
    simp [Doc.raws, flat]
  | cons l ls ih =>
    simp only [parseLines, Option.bind_eq_some] at h
    obtain ⟨d0, hd0, hcons⟩ := h
    rw [raws_of_consLine hcons, ih hd0]

/-- Whatever parses serialises back to the exact input text: the model of
toml_edit preserves formatting byte for byte. -/
theorem toText_of_parseToml {s : String} {d : Doc}
    (h : parseToml s = some d) : d.toText = s := by
  unfold parseToml at h
  unfold Doc.toText
  rw [raws_of_parseLines h, joinNl_splitNl]

/-! ### Well-formed documents reparse to themselves -/

/-- A body line is well formed when its raw text classifies back to the
same kind and contains no newline. -/
def TLine.wfLine : TLine → Prop
  | .trivia r => classify r = some .trivia ∧ '\n' ∉ r
  | .kvline r k => classify r = some (.kvpair k) ∧ '\n' ∉ r

/-- A table is well formed when its header reclassifies to its name and
all body lines are well formed. -/
def TSection.wfSection (s : TSection) : Prop :=
  (classify s.headerRaw = some (.header s.name) ∧ '\n' ∉ s.headerRaw) ∧
    ∀ tl ∈ s.lines, tl.wfLine

/-- A document is well formed when all its parts are. -/
def Doc.wfDoc (d : Doc) : Prop :=
  (∀ tl ∈ d.rootLines, tl.wfLine) ∧ ∀ s ∈ d.sections, s.wfSection

theorem consLine_raw_of_wfLine {tl : TLine} (h : tl.wfLine) (d : Doc) :
    Doc.consLine tl.raw d = some { d with rootLines := tl :: d.rootLines } := by
  cases tl with
  | trivia r => simp only [TLine.wfLine] at h; simp [Doc.consLine, TLine.raw, h.1]
  | kvline r k => simp only [TLine.wfLine] at h; simp [Doc.consLine, TLine.raw, h.1]

theorem parseLines_body_append {tls : List TLine} (hwf : ∀ tl ∈ tls, tl.wfLine)
    {rest : List (List Char)} {d : Doc} (hrest : parseLines rest = some d) :
    parseLines (tls.map TLine.raw ++ rest) =
      some { d with rootLines := tls ++ d.rootLines } := by
  induction tls with
  | nil => simpa using hrest
  | cons tl tls ih =>
    have h1 := ih (fun x hx => hwf x (List.mem_cons.2 (Or.inr hx)))
    simp only [List.map_cons, List.cons_append, parseLines, List.append_eq, h1,
      Option.some_bind]
    rw [consLine_raw_of_wfLine (hwf tl (List.mem_cons_self _ _))]

theorem parseLines_sections {ss : List TSection} (hwf : ∀ s ∈ ss, s.wfSection) :
    parseLines (flat (ss.map TSection.raws)) = some ⟨[], ss⟩ := by
  induction ss with
  | nil => simp [flat, parseLines]
  | cons s ss ih =>
    have hs := hwf s (List.mem_cons_self _ _)
    have h1 := ih (fun x hx => hwf x (List.mem_cons.2 (Or.inr hx)))
    have h2 : parseLines (s.lines.map TLine.raw ++ flat (ss.map TSection.raws)) =
        some ⟨s.lines, ss⟩ := by
      rw [parseLines_body_append hs.2 h1]
      simp
    simp only [List.map_cons, flat, TSection.raws, List.cons_append, parseLines,
      List.append_eq, h2, Option.some_bind]
    simp only [Doc.consLine, hs.1.1]

theorem parseLines_raws {d : Doc} (h : d.wfDoc) : parseLines d.raws = some d := by
  obtain ⟨hroot, hsec⟩ := h
  unfold Doc.raws
  rw [parseLines_body_append hroot (parseLines_sections hsec)]
  simp

theorem no_nl_of_wfLine {tl : TLine} (h : tl.wfLine) : '\n' ∉ tl.raw := by
  cases tl with
  | trivia r => exact h.2
  | kvline r k => exact h.2

theorem no_nl_flat_sections {ss : List TSection} (hwf : ∀ s ∈ ss, s.wfSection) :
    ∀ l ∈ flat (ss.map TSection.raws), '\n' ∉ l := by
  induction ss with
  | nil => simp [flat]
  | cons s ss ih =>
    intro l hl
    simp only [List.map_cons, flat, List.mem_append] at hl
    have hs := hwf s (List.mem_cons_self _ _)
    rcases hl with h2 | h2
    · simp only [TSection.raws, List.mem_cons] at h2
      rcases h2 with h3 | h3
      · subst h3; exact hs.1.2
      · obtain ⟨tl, htl, hraw⟩ := List.mem_map.1 h3
        subst hraw
        exact no_nl_of_wfLine (hs.2 tl htl)
    · exact ih (fun x hx => hwf x (List.mem_cons.2 (Or.inr hx))) l h2

/-- A well-formed document with at least one line reparses to itself
after serialisation. -/
theorem parseToml_toText {d : Doc} (h : d.wfDoc) (hne : d.raws ≠ []) :
    parseToml d.toText = some d := by
  unfold parseToml Doc.toText
  have hnl : ∀ l ∈ d.raws, '\n' ∉ l := by
    intro l hl
    unfold Doc.raws at hl
    rcases List.mem_append.1 hl with h1 | h1
    · obtain ⟨tl, htl, hraw⟩ := List.mem_map.1 h1
      subst hraw
      exact no_nl_of_wfLine (h.1 tl htl)
    · exact no_nl_flat_sections h.2 l h1
  show parseLines (splitNl (String.mk (joinNl d.raws)).data) = some d
  rw [show (String.mk (joinNl d.raws)).data = joinNl d.raws from rfl,
    splitNl_joinNl hnl hne, parseLines_raws h]

theorem wfDoc_of_parseLines {ls : List (List Char)} {d : Doc}
    (h : parseLines ls = some d) (hnl : ∀ l ∈ ls, '\n' ∉ l) : d.wfDoc := by
  induction ls generalizing d with
  | nil =>
    simp only [parseLines, Option.some.injEq] at h
    subst h
    exact ⟨by simp, by simp⟩
  | cons l ls ih =>
    simp only [parseLines, Option.bind_eq_some] at h
    obtain ⟨d0, hd0, hcons⟩ := h
    have hwf0 := ih hd0 (fun x hx => hnl x (List.mem_cons.2 (Or.inr hx)))
    have hl : '\n' ∉ l := hnl l (List.mem_cons_self _ _)
    unfold Doc.consLine at hcons
    cases hcl : classify l with
    | none => rw [hcl] at hcons; exact absurd hcons (by simp)
    | some k =>
      rw [hcl] at hcons
      cases k with
      | trivia =>
        simp only [Option.some.injEq] at hcons
        subst hcons
        refine ⟨?_, hwf0.2⟩
        intro tl htl
        rcases List.mem_cons.1 htl with h1 | h1
        · subst h1; exact ⟨hcl, hl⟩
        · exact hwf0.1 tl h1
      | kvpair key =>
        simp only [Option.some.injEq] at hcons
        subst hcons
        refine ⟨?_, hwf0.2⟩
        intro tl htl
        rcases List.mem_cons.1 htl with h1 | h1
        · subst h1; exact ⟨hcl, hl⟩
        · exact hwf0.1 tl h1
      | header n =>
        simp only [Option.some.injEq] at hcons
        subst hcons
        refine ⟨by simp, ?_⟩
        intro s hsmem
        rcases List.mem_cons.1 hsmem with h1 | h1
        · subst h1; exact ⟨⟨hcl, hl⟩, hwf0.1⟩
        · exact hwf0.2 s h1

/-- Every parsed manifest is well formed. -/
theorem wfDoc_of_parseToml {s : String} {d : Doc}
    (h : parseToml s = some d) : d.wfDoc :=
  wfDoc_of_parseLines h (mem_splitNl_no_nl s.data)

/-! ### Properties of the manifest mutation `patchDoc` -/

theorem classify_deps_header :
    classify "[dependencies]".data = some (.header "dependencies") := by decide

theorem wfLine_obf_pair :
    TLine.wfLine (.kvline (mkPairRaw "rust_code_obfuscator" "0.2.10") "rust_code_obfuscator") := by
  constructor <;> decide

theorem wfLine_cryptify_pair :
    TLine.wfLine (.kvline (mkPairRaw "cryptify" "3.1.1") "cryptify") := by
  constructor <;> decide

theorem ensureKey_name (s : TSection) (k v : String) :
    (s.ensureKey k v).name = s.name := by
  unfold TSection.ensureKey
  split <;> rfl

theorem ensureKey_headerRaw (s : TSection) (k v : String) :
    (s.ensureKey k v).headerRaw = s.headerRaw := by
  unfold TSection.ensureKey
  split <;> rfl

theorem hasKeyLines_append (k : String) (l1 l2 : List TLine) :
    hasKeyLines k (l1 ++ l2) = (hasKeyLines k l1 || hasKeyLines k l2) := by
  induction l1 with
  | nil => simp [hasKeyLines]
  | cons tl tls ih => simp [hasKeyLines, ih, Bool.or_assoc]

theorem ensureKey_hasKey_self (s : TSection) (k v : String) :
    (s.ensureKey k v).hasKey k = true := by
  unfold TSection.ensureKey
  split
  · assumption
  · simp [TSection.hasKey, hasKeyLines_append, hasKeyLines, TLine.key?]

theorem ensureKey_hasKey_mono {s : TSection} {k2 : String} (k v : String)
    (h : s.hasKey k2 = true) : (s.ensureKey k v).hasKey k2 = true := by
  unfold TSection.ensureKey
  split
  · exact h
  · simp [TSection.hasKey, hasKeyLines_append] at h ⊢
    exact Or.inl h

theorem entryRawLines_append_left {k : String} {l1 : List TLine} {r : List Char}
    (h : entryRawLines k l1 = some r) (l2 : List TLine) :
    entryRawLines k (l1 ++ l2) = some r := by
  induction l1 with
  | nil => simp [entryRawLines] at h
  | cons tl tls ih =>
    cases tl with
    | trivia r2 =>
      simp only [List.cons_append, entryRawLines, TLine.key?] at h ⊢
      exact ih h
    | kvline r2 k2 =>
      simp only [List.cons_append, entryRawLines, TLine.key?] at h ⊢
      by_cases hk : k2 = k
      · simpa [hk] using h
      · rw [if_neg hk] at h ⊢; exact ih h

theorem ensureKey_entryRaw {s : TSection} {k2 : String} {r : List Char} (k v : String)
    (h : s.entryRaw k2 = some r) : (s.ensureKey k v).entryRaw k2 = some r := by
  unfold TSection.ensureKey
  split
  · exact h
  · exact entryRawLines_append_left h _

theorem ensureKey_wfSection {s : TSection} (h : s.wfSection)
    {k v : String} (hins : TLine.wfLine (.kvline (mkPairRaw k v) k)) :
    (s.ensureKey k v).wfSection := by
  unfold TSection.ensureKey
  split
  · exact h
  · refine ⟨h.1, ?_⟩
    intro tl htl
    rcases List.mem_append.1 htl with h1 | h1
    · exact h.2 tl h1
    · rcases List.mem_singleton.1 h1 with rfl
      exact hins

theorem depsMutation_name (s : TSection) : (depsMutation s).name = s.name := by
  unfold depsMutation
  rw [ensureKey_name, ensureKey_name]

theorem depsMutation_hasKeys (s : TSection) :
    (depsMutation s).hasKey "rust_code_obfuscator" = true ∧
      (depsMutation s).hasKey "cryptify" = true :=
  ⟨ensureKey_hasKey_mono _ _ (ensureKey_hasKey_self s _ _),
    ensureKey_hasKey_self _ _ _⟩

theorem depsMutation_entryRaw {s : TSection} {k : String} {r : List Char}
    (h : s.entryRaw k = some r) : (depsMutation s).entryRaw k = some r :=
  ensureKey_entryRaw _ _ (ensureKey_entryRaw _ _ h)

theorem depsMutation_wfSection {s : TSection} (h : s.wfSection) :
    (depsMutation s).wfSection :=
  ensureKey_wfSection (ensureKey_wfSection h wfLine_obf_pair) wfLine_cryptify_pair

theorem depsMutation_of_hasKeys {s : TSection}
    (h1 : s.hasKey "rust_code_obfuscator" = true) (h2 : s.hasKey "cryptify" = true) :
    depsMutation s = s := by
  have h1b : (s.ensureKey "rust_code_obfuscator" "0.2.10") = s := by
    unfold TSection.ensureKey
    rw [if_pos h1]
  unfold depsMutation
  rw [h1b]
  unfold TSection.ensureKey
  rw [if_pos h2]

theorem findDeps_of_hasSection {ss : List TSection}
    (h : hasSectionNamed "dependencies" ss = true) : ∃ s, findDeps ss = some s := by
  induction ss with
  | nil => simp [hasSectionNamed] at h
  | cons s ss ih =>
    simp only [hasSectionNamed, Bool.or_eq_true, beq_iff_eq] at h
    by_cases hn : s.name = "dependencies"
    · exact ⟨s, by simp [findDeps, hn]⟩
    · obtain ⟨s2, hs2⟩ := ih (h.resolve_left hn)
      exact ⟨s2, by simp [findDeps, hn, hs2]⟩

theorem hasSection_of_findDeps {ss : List TSection} {s : TSection}
    (h : findDeps ss = some s) : hasSectionNamed "dependencies" ss = true := by
  induction ss with
  | nil => simp [findDeps] at h
  | cons s2 ss ih =>
    simp only [findDeps] at h
    by_cases hn : s2.name = "dependencies"
    · simp [hasSectionNamed, hn]
    · rw [if_neg hn] at h
      simp [hasSectionNamed, ih h, hn]

theorem findDeps_modifyDeps (ss : List TSection) :
    findDeps (modifyDeps depsMutation ss) = (findDeps ss).map depsMutation := by
  induction ss with
  | nil => simp [findDeps, modifyDeps]
  | cons s ss ih =>
    by_cases hn : s.name = "dependencies"
    · simp [modifyDeps, findDeps, hn, depsMutation_name]
    · simp only [modifyDeps, if_neg hn, findDeps, depsMutation_name]
      exact ih

theorem hasSectionNamed_modifyDeps (k : String) (ss : List TSection) :
    hasSectionNamed k (modifyDeps depsMutation ss) = hasSectionNamed k ss := by
  induction ss with
  | nil => simp [modifyDeps]
  | cons s ss ih =>
    by_cases hn : s.name = "dependencies"
    · simp [modifyDeps, hn, hasSectionNamed, depsMutation_name]
    · simp only [modifyDeps, if_neg hn, hasSectionNamed, ih]

theorem hasSectionNamed_append (k : String) (ss1 ss2 : List TSection) :
    hasSectionNamed k (ss1 ++ ss2) =
      (hasSectionNamed k ss1 || hasSectionNamed k ss2) := by
  induction ss1 with
  | nil => simp [hasSectionNamed]
  | cons s ss ih => simp [hasSectionNamed, ih, Bool.or_assoc]

theorem findDeps_append_of_none {ss1 : List TSection}
    (h : findDeps ss1 = none) (ss2 : List TSection) :
    findDeps (ss1 ++ ss2) = findDeps ss2 := by
  induction ss1 with
  | nil => simp
  | cons s ss ih =>
    simp only [findDeps] at h
    by_cases hn : s.name = "dependencies"
    · rw [if_pos hn] at h; exact absurd h (by simp)
    · rw [if_neg hn] at h
      simp only [List.cons_append, findDeps, if_neg hn]
      exact ih h

theorem findDeps_none_of_not_hasSection {ss : List TSection}
    (h : hasSectionNamed "dependencies" ss = false) : findDeps ss = none := by
  cases hf : findDeps ss with
  | none => rfl
  | some s => rw [hasSection_of_findDeps hf] at h; exact absurd h (by simp)

theorem modifyDeps_of_fix {ss : List TSection} {s : TSection}
    (h : findDeps ss = some s) (hfix : depsMutation s = s) :
    modifyDeps depsMutation ss = ss := by
  induction ss with
  | nil => simp [findDeps] at h
  | cons s2 ss ih =>
    simp only [findDeps] at h
    by_cases hn : s2.name = "dependencies"
    · rw [if_pos hn] at h
      injection h with h2
      subst h2
      simp only [modifyDeps, if_pos hn]
      rw [hfix]
    · rw [if_neg hn] at h
      simp only [modifyDeps, if_neg hn]
      rw [ih h]

theorem modifyDeps_wf {ss : List TSection} (h : ∀ s ∈ ss, s.wfSection) :
    ∀ s ∈ modifyDeps depsMutation ss, s.wfSection := by
  induction ss with
  | nil => simp [modifyDeps]
  | cons s2 ss ih =>
    by_cases hn : s2.name = "dependencies"
    · simp only [modifyDeps, if_pos hn]
      intro s hs
      rcases List.mem_cons.1 hs with h1 | h1
      · subst h1
        exact depsMutation_wfSection (h s2 (List.mem_cons_self _ _))
      · exact h s (List.mem_cons.2 (Or.inr h1))
    · simp only [modifyDeps, if_neg hn]
      intro s hs
      rcases List.mem_cons.1 hs with h1 | h1
      · rw [h1]; exact h s2 (List.mem_cons_self _ _)
      · exact ih (fun x hx => h x (List.mem_cons.2 (Or.inr hx))) s h1

theorem patchDoc_eq_of_ck {d : Doc} (hck : d.containsKey "dependencies" = true) :
    patchDoc d = (if hasSectionNamed "dependencies" d.sections then
      some ⟨d.rootLines, modifyDeps depsMutation d.sections⟩ else none) := by
  simp [patchDoc, hck]

theorem patchDoc_eq_of_nck {d : Doc} (hck : d.containsKey "dependencies" = false) :
    patchDoc d = some ⟨d.rootLines, modifyDeps depsMutation
      (d.sections ++ [⟨"[dependencies]".data, "dependencies", []⟩])⟩ := by
  have hs : hasSectionNamed "dependencies"
      (d.sections ++ [⟨"[dependencies]".data, "dependencies", []⟩]) = true := by
    rw [hasSectionNamed_append]
    simp [hasSectionNamed]
  simp [patchDoc, hck, Doc.createDeps, hs]

theorem patchDoc_rootLines {d d' : Doc} (h : patchDoc d = some d') :
    d'.rootLines = d.rootLines := by
  cases hck : d.containsKey "dependencies" with
  | true =>
    rw [patchDoc_eq_of_ck hck] at h
    split at h
    · injection h with h2; rw [← h2]
    · exact absurd h (by simp)
  | false =>
    rw [patchDoc_eq_of_nck hck] at h
    injection h with h2
    rw [← h2]

theorem patchDoc_depsSection {d d' : Doc} (h : patchDoc d = some d') :
    ∃ s', d'.depsSection? = some s' ∧
      s'.hasKey "rust_code_obfuscator" = true ∧ s'.hasKey "cryptify" = true ∧
      (∀ s0, d.depsSection? = some s0 → s' = depsMutation s0) := by
  cases hck : d.containsKey "dependencies" with
  | true =>
    rw [patchDoc_eq_of_ck hck] at h
    split at h
    · rename_i hs
      injection h with h2
      obtain ⟨s0, hs0⟩ := findDeps_of_hasSection hs
      refine ⟨depsMutation s0, ?_, (depsMutation_hasKeys s0).1,
        (depsMutation_hasKeys s0).2, ?_⟩
      · unfold Doc.depsSection?
        rw [← h2]
        show findDeps (modifyDeps depsMutation d.sections) = some (depsMutation s0)
        rw [findDeps_modifyDeps, hs0]
        rfl
      · intro s1 hs1
        unfold Doc.depsSection? at hs1
        rw [hs0] at hs1
        injection hs1 with h3
        rw [h3]
    · exact absurd h (by simp)
  | false =>
    rw [patchDoc_eq_of_nck hck] at h
    injection h with h2
    have hnone : findDeps d.sections = none := by
      apply findDeps_none_of_not_hasSection
      unfold Doc.containsKey at hck
      exact (Bool.or_eq_false_iff.1 hck).2
    refine ⟨depsMutation ⟨"[dependencies]".data, "dependencies", []⟩, ?_,
      (depsMutation_hasKeys _).1, (depsMutation_hasKeys _).2, ?_⟩
    · unfold Doc.depsSection?
      rw [← h2]
      show findDeps (modifyDeps depsMutation
        (d.sections ++ [⟨"[dependencies]".data, "dependencies", []⟩])) = _
      rw [findDeps_modifyDeps, findDeps_append_of_none hnone]
      rfl
    · intro s1 hs1
      unfold Doc.depsSection? at hs1
      rw [hnone] at hs1
      exact absurd hs1 (by simp)

theorem patchDoc_containsKey_package {d d' : Doc} (h : patchDoc d = some d') :
    d'.containsKey "package" = d.containsKey "package" := by
  unfold Doc.containsKey
  rw [patchDoc_rootLines h]
  cases hck : d.containsKey "dependencies" with
  | true =>
    rw [patchDoc_eq_of_ck hck] at h
    split at h
    · injection h with h2
      rw [← h2]
      show (_ || hasSectionNamed "package" (modifyDeps depsMutation d.sections)) = _
      rw [hasSectionNamed_modifyDeps]
    · exact absurd h (by simp)
  | false =>
    rw [patchDoc_eq_of_nck hck] at h
    injection h with h2
    rw [← h2]
    show (_ || hasSectionNamed "package" (modifyDeps depsMutation
      (d.sections ++ [⟨"[dependencies]".data, "dependencies", []⟩]))) = _
    rw [hasSectionNamed_modifyDeps, hasSectionNamed_append]
    simp [hasSectionNamed]

theorem patchDoc_wf {d d' : Doc} (hwf : d.wfDoc) (h : patchDoc d = some d') :
    d'.wfDoc := by
  constructor
  · rw [patchDoc_rootLines h]
    exact hwf.1
  · cases hck : d.containsKey "dependencies" with
    | true =>
      rw [patchDoc_eq_of_ck hck] at h
      split at h
      · injection h with h2
        rw [← h2]
        exact modifyDeps_wf hwf.2
      · exact absurd h (by simp)
    | false =>
      rw [patchDoc_eq_of_nck hck] at h
      injection h with h2
      rw [← h2]
      apply modifyDeps_wf
      intro s hsmem
      rcases List.mem_append.1 hsmem with h1 | h1
      · exact hwf.2 s h1
      · rcases List.mem_singleton.1 h1 with rfl
        exact ⟨⟨classify_deps_header, by decide⟩, by simp⟩

theorem patchDoc_sections_ne {d d' : Doc} (h : patchDoc d = some d') :
    d'.sections ≠ [] := by
  obtain ⟨s', hs', _⟩ := patchDoc_depsSection h
  intro hnil
  unfold Doc.depsSection? at hs'
  rw [hnil] at hs'
  simp [findDeps] at hs'

theorem raws_ne_of_sections_ne {d : Doc} (h : d.sections ≠ []) : d.raws ≠ [] := by
  unfold Doc.raws
  cases hss : d.sections with
  | nil => exact absurd hss h
  | cons s ss =>
    simp only [List.map_cons, flat, TSection.raws]
    intro hcontra
    have := List.append_eq_nil.1 hcontra
    exact absurd (List.append_eq_nil.1 this.2).1 (by simp)

/-- Patching is idempotent at the document level: a patched document is
left unchanged by a second application. -/
theorem patchDoc_idem {d d' : Doc} (h : patchDoc d = some d') :
    patchDoc d' = some d' := by
  obtain ⟨s', hs', hk1, hk2, _⟩ := patchDoc_depsSection h
  have hsec : hasSectionNamed "dependencies" d'.sections = true :=
    hasSection_of_findDeps hs'
  have hck : d'.containsKey "dependencies" = true := by
    unfold Doc.containsKey
    rw [hsec]
    simp
  rw [patchDoc_eq_of_ck hck, if_pos hsec,
    modifyDeps_of_fix hs' (depsMutation_of_hasKeys hk1 hk2)]

/-- The patched text of a parsed manifest reparses to the patched
document: writing then re-reading a patched manifest is lossless. -/
theorem parseToml_patched {c : String} {d d' : Doc}
    (hparse : parseToml c = some d) (h : patchDoc d = some d') :
    parseToml d'.toText = some d' :=
  parseToml_toText (patchDoc_wf (wfDoc_of_parseToml hparse) h)
    (raws_ne_of_sections_ne (patchDoc_sections_ne h))

/-! ## The filesystem model

A path is its list of components; the filesystem is an association list
from paths to file contents.  `WalkDir` is modelled by listing the stored
paths that lie under a root (the model stores only files, so directory
entries of the real walk, which never match the `.rs`/`Cargo.toml`
filters used here, are omitted). -/

/-- A filesystem path, as its list of components. -/
abbrev Path := List String

/-- A filesystem: an association list from paths to file contents. -/
abbrev FS := List (Path × String)

/-- Content stored at a path (first binding wins). -/
def FS.read : FS → Path → Option String
  | [], _ => none
  | e :: es, p => if e.1 = p then some e.2 else FS.read es p

/-- Store content at a path: replace the first binding, or append a new
one.  Models `fs::write` / writing a file in place. -/
def FS.write : FS → Path → String → FS
  | [], p, s => [(p, s)]
  | e :: es, p, s => if e.1 = p then (p, s) :: es else e :: FS.write es p s

/-- The stored paths, in order. -/
def FS.paths (fs : FS) : List Path := fs.map Prod.fst

/-- `startsWith root p`: `p` lies under directory `root`.  Models
`Path::starts_with`, which `WalkDir::new(root)` guarantees for every
yielded entry. -/
def startsWith : Path → Path → Bool
  | [], _ => true
  | _, [] => false
  | a :: as, b :: bs => a == b && startsWith as bs

/-- Model of `WalkDir::new(root) .filter_map(Result::ok)` (lines 59–61,
91–93): every stored path under the root, in storage order. -/
def FS.walk (fs : FS) (root : Path) : List Path :=
  fs.paths.filter (fun p => startsWith root p)

/-- Prepend a character to the first chunk of a dot-split. -/
def consHdDot (c : Char) : List (List Char) → List (List Char)
  | [] => [[c]]
  | l :: ls => (c :: l) :: ls

/-- Split a file name at every dot. -/
def splitDot : List Char → List (List Char)
  | [] => [[]]
  | c :: cs => if c = '.' then [] :: splitDot cs else consHdDot c (splitDot cs)

/-- Model of `Path::extension` on a file name (`None` without an embedded
dot, `None` for a leading-dot-only name, else the part after the last
dot). -/
def fileExtension (name : String) : Option String :=
  match splitDot name.data with
  | [] => none
  | [_] => none
  | part0 :: rest =>
    if part0 = [] ∧ rest.length = 1 then none
    else (rest.getLast?).map String.mk

/-- Filter of lines 62 and 149: `path.extension() == Some("rs")`. -/
def isRustPath (p : Path) : Bool :=
  match p.getLast? with
  | some n => fileExtension n == some "rs"
  | none => false

/-- The files `transform_rust_files` and `format_rust_files` iterate
over. -/
def rsFiles (fs : FS) (root : Path) : List Path :=
  (fs.walk root).filter isRustPath

/-- Filter of line 94: `e.file_name() == "Cargo.toml"`; the files
`patch_cargo_toml` iterates over. -/
def manifestFiles (fs : FS) (root : Path) : List Path :=
  (fs.walk root).filter (fun p => p.getLast? == some "Cargo.toml")

/-- Model of `file_path.strip_prefix(project_root)?` (line 65). -/
def stripRoot (root p : Path) : Option Path :=
  if startsWith root p then some (p.drop root.length) else none

/-! ## Run state: effects of one orchestration call

Console output is recorded as `Event`s; a raised `anyhow` error is
recorded in `err` and, mirroring `?`, freezes all later steps while
keeping the mutations already performed. -/

/-- Errors surfaced by the orchestration (`anyhow::Error` values). -/
inductive Err where
  | ioErr (p : Path)
  | tomlParseErr (p : Path)
  | depsNotTable (p : Path)
  | stripRootErr (p : Path)
  | rustfmtMissing
deriving DecidableEq

/-- Observable console output of one run. -/
inductive Event where
  | verboseLine (rel : Path) (changed : Bool)
  | diffShown (rel : Path)
  | writingMsg (p : Path)
  | parseWarning (rel : Path)
  | skipVirtual (p : Path)
  | patchedMsg (p : Path)
  | fmtWarning (p : Path)
  | dryRunBanner
deriving DecidableEq

/-- State threaded through a run: the filesystem, the console output so
far, and the pending error, if any. -/
structure RunSt where
  fs : FS
  events : List Event
  err : Option Err
deriving DecidableEq

/-- Initial state of a run over a filesystem. -/
def RunSt.init (fs : FS) : RunSt := ⟨fs, [], none⟩

/-- Append console output. -/
def RunSt.emit (st : RunSt) (evs : List Event) : RunSt :=
  { st with events := st.events ++ evs }

/-- Raise an error (the `?` operator). -/
def RunSt.fail (st : RunSt) (e : Err) : RunSt := { st with err := some e }

/-- Sequence two effectful steps; the second runs only when the first
did not raise (`?`-propagation), and output accumulates. -/
def RunSt.andThen (st : RunSt) (f : FS → RunSt) : RunSt :=
  match st.err with
  | some _ => st
  | none =>
    let r := f st.fs
    ⟨r.fs, st.events ++ r.events, r.err⟩

/-! ## Collaborators not under src/

`crate::config`, `crate::processor::process_file` and
`crate::file_io::write_transformed` belong to this repository but are
not in the provided sources; they are modelled from the spec (§3, §4.6,
§6).  The transformation engine itself and the external `rustfmt` binary
are oracle parameters: the claims hold for every behaviour of these. -/

/-- Modelled from the spec: the `[obfuscation]` options of
`crate::config::ObfuscateConfig` (§6 Input; field names as used by the
source's test module). -/
structure ObfuscationSection where
  strings : Bool
  min_string_length : Option Nat
  ignore_strings : Option (List String)
  control_flow : Bool
  skip_files : Option (List String)
  skip_attributes : Option (List String)
deriving DecidableEq

/-- Modelled from the spec: `crate::config::ObfuscateConfig` (§6 Input).
The `identifiers` section is opaque to the orchestration layer; the
`include` allowlist field is named `includePatterns` here. -/
structure ObfuscateConfig where
  obfuscation : ObfuscationSection
  identifiers : Option Unit
  includePatterns : Option (List String)
deriving DecidableEq

/-- Outcome of the engine on one file: a parse failure or emitted text. -/
inductive EngineOutcome where
  | parseFailure
  | emitted (text : String)

/-- The transformation engine (spec §4.6), as an oracle over the
relative path and file content. -/
abbrev Engine := ObfuscateConfig → Path → String → EngineOutcome

/-- Result of spawning `rustfmt` on one file: `Except.error` is a spawn
failure (`result.is_err()`, line 156); otherwise the file's new content
(`rustfmt` rewrites the file in place and may leave it unchanged). -/
abbrev Rustfmt := Path → String → Except Unit String

/-- Modelled from the spec: `crate::processor::process_file` (§4.6
Engine Facade).  A parse failure is terminal `Skipped`: the untouched
original is emitted with `changed = false` and a warning is surfaced;
otherwise the emitter diffs the emitted text against the original to
compute `changed` (§2 Emitter), and the original is retained for diff
preview (§3 TransformResult).  The source function reads the file at its
absolute path itself; the caller threads the content here and the read
is modelled in `transform_rust_files`. -/
def process_file (eng : Engine) (cfg : ObfuscateConfig) (relative : Path)
    (content : String) : (String × Bool × Option String) × List Event :=
  match eng cfg relative content with
  | .parseFailure => ((content, false, some content), [.parseWarning relative])
  | .emitted t => ((t, t != content, some content), [])

/-- Modelled from the spec: `crate::file_io::write_transformed` (§6
file-access collaborator) stores the emitted text at the path.  The
formatter is specified as a separate collaborator (§6) modelled in
`format_rust_files`, so the forwarded `format` flag does not alter the
stored text. -/
def write_transformed (fs : FS) (p : Path) (text : String) (_format : Bool) : FS :=
  fs.write p text

/-! ## The embedded source functions (`project_mode.rs`) -/

/-- One iteration of the loop in `transform_rust_files` (lines 59–86):
strip the project root, run `process_file`, print the verbose line, show
the unified diff when `changed` and a context radius was given, and
write the transformed text unless `dry_run`. -/
def transformStep (eng : Engine) (cfg : ObfuscateConfig) (root : Path)
    (format dryRun : Bool) (diffCtx : Option Nat) (verbose : Bool)
    (st : RunSt) (p : Path) : RunSt :=
  match st.err with
  | some _ => st
  | none =>
    match stripRoot root p with
    | none => st.fail (.stripRootErr p)
    | some relative =>
      match st.fs.read p with
      | none => st.fail (.ioErr p)
      | some content =>
        let pr := process_file eng cfg relative content
        let changed := pr.1.2.1
        let st1 := st.emit pr.2
        let st2 := if verbose then st1.emit [.verboseLine relative changed] else st1
        if changed then
          let st3 :=
            match diffCtx, pr.1.2.2 with
            | some _, some _ => st2.emit [.diffShown relative]
            | _, _ => st2
          if dryRun then st3
          else
            let st4 := st3.emit [.writingMsg p]
            { st4 with fs := write_transformed st4.fs p pr.1.1 format }
        else st2

/-- Model of `transform_rust_files` (lines 51–88): fold the per-file
step over every `.rs` file under the project root. -/
def transform_rust_files (eng : Engine) (root : Path) (cfg : ObfuscateConfig)
    (format dryRun : Bool) (diffCtx : Option Nat) (verbose : Bool)
    (fs : FS) : RunSt :=
  (rsFiles fs root).foldl (transformStep eng cfg root format dryRun diffCtx verbose)
    (RunSt.init fs)

/-- One iteration of the loop in `patch_cargo_toml` (lines 96–124): read
the manifest, parse it (`?` on failure), skip virtual manifests, apply
the dependency inserts (`?` when `[dependencies]` is not a table) and
write the document back. -/
def patchStep (st : RunSt) (p : Path) : RunSt :=
  match st.err with
  | some _ => st
  | none =>
    match st.fs.read p with
    | none => st.fail (.ioErr p)
    | some content =>
      match parseToml content with
      | none => st.fail (.tomlParseErr p)
      | some doc =>
        if doc.containsKey "package" then
          match patchDoc doc with
          | none => st.fail (.depsNotTable p)
          | some doc2 =>
            let stw := st.emit [.patchedMsg p]
            { stw with fs := stw.fs.write p doc2.toText }
        else st.emit [.skipVirtual p]

/-- Model of `patch_cargo_toml` (lines 90–128): fold the per-manifest
step over every `Cargo.toml` under the project root. -/
def patch_cargo_toml (root : Path) (fs : FS) : RunSt :=
  (manifestFiles fs root).foldl patchStep (RunSt.init fs)

/-- Model of `ensure_rustfmt_installed` (lines 130–143): whether
`rustfmt --version` can be spawned is an oracle bit; `bail!` otherwise. -/
def ensure_rustfmt_installed (installed : Bool) : Option Err :=
  if installed then none else some .rustfmtMissing

/-- One iteration of the loop in `format_rust_files` (lines 151–158):
spawn `rustfmt` on the file; a spawn failure is only a warning.  A
missing file would also surface as a spawn-level failure of the `rustfmt`
child; walked files always exist, so that branch is inert. -/
def formatStep (fmt : Rustfmt) (st : RunSt) (p : Path) : RunSt :=
  match st.err with
  | some _ => st
  | none =>
    match st.fs.read p with
    | none => st
    | some content =>
      match fmt p content with
      | .error _ => st.emit [.fmtWarning p]
      | .ok newText => { st with fs := st.fs.write p newText }

/-- Model of `format_rust_files` (lines 145–161). -/
def format_rust_files (fmt : Rustfmt) (root : Path) (fs : FS) : RunSt :=
  (rsFiles fs root).foldl (formatStep fmt) (RunSt.init fs)

/-- Model of `copy_full_structure` (lines 39–49):
`fs_extra::dir::copy` with `copy_inside`/`overwrite` duplicates every
file under `input` to the corresponding path under `output`,
overwriting. -/
def copy_full_structure (fs : FS) (input output : Path) : FS :=
  (fs.filter (fun e => startsWith input e.1)).foldl
    (fun acc e => acc.write (output ++ e.1.drop input.length) e.2) fs

/-- Model of `process_project` (lines 12–37): on a dry run, print the
banner and scan the input tree without copying; otherwise copy the tree,
transform the `.rs` files of the output tree, patch its manifests, and,
when formatting is on, check `rustfmt` and format the output tree. -/
def process_project (eng : Engine) (fmt : Rustfmt) (rustfmtInstalled : Bool)
    (input output : Path) (format : Bool) (cfg : ObfuscateConfig)
    (dryRun : Bool) (diffCtx : Option Nat) (verbose : Bool) (fs : FS) : RunSt :=
  if dryRun then
    let st := transform_rust_files eng input cfg false true diffCtx verbose fs
    { st with events := .dryRunBanner :: st.events }
  else
    let fs1 := copy_full_structure fs input output
    let st1 := transform_rust_files eng output cfg format false diffCtx verbose fs1
    let st2 := st1.andThen (fun f2 => patch_cargo_toml output f2)
    if format then
      st2.andThen (fun f3 =>
        match ensure_rustfmt_installed rustfmtInstalled with
        | some e => ⟨f3, [], some e⟩
        | none => format_rust_files fmt output f3)
    else st2

/-! ## Basic filesystem lemmas -/

theorem FS.read_write_self (fs : FS) (p : Path) (s : String) :
    (fs.write p s).read p = some s := by
  induction fs with
  | nil => simp [FS.write, FS.read]
  | cons e es ih =>
    by_cases he : e.1 = p
    · simp [FS.write, he, FS.read]
    · simp [FS.write, he, FS.read, ih]

theorem FS.read_write_ne {q p : Path} (fs : FS) (s : String) (h : q ≠ p) :
    (fs.write p s).read q = fs.read q := by
  have hpq : ¬ p = q := fun hc => h hc.symm
  induction fs with
  | nil => simp [FS.write, FS.read, hpq]
  | cons e es ih =>
    by_cases he : e.1 = p
    · have he2 : ¬ e.1 = q := by rw [he]; exact hpq
      simp only [FS.write, if_pos he, FS.read, if_neg hpq, if_neg he2]
    · by_cases heq : e.1 = q
      · simp only [FS.write, if_neg he, FS.read, if_pos heq]
      · simp only [FS.write, if_neg he, FS.read, if_neg heq, ih]

theorem FS.write_self {fs : FS} {p : Path} {s : String}
    (h : fs.read p = some s) : fs.write p s = fs := by
  induction fs with
  | nil => simp [FS.read] at h
  | cons e es ih =>
    by_cases he : e.1 = p
    · simp only [FS.read, if_pos he] at h
      injection h with h2
      have he2 : (p, s) = e := by rw [← he, ← h2]
      simp only [FS.write, if_pos he]
      rw [he2]
    · simp only [FS.read, if_neg he] at h
      simp [FS.write, he, ih h]

theorem FS.mem_paths_of_read {fs : FS} {p : Path} {c : String}
    (h : fs.read p = some c) : p ∈ fs.paths := by
  induction fs with
  | nil => simp [FS.read] at h
  | cons e es ih =>
    by_cases he : e.1 = p
    · simp [FS.paths, he]
    · simp only [FS.read, if_neg he] at h
      simp [FS.paths] at ih ⊢
      exact Or.inr (ih h)

theorem FS.read_isSome_of_mem_paths {fs : FS} {p : Path}
    (h : p ∈ fs.paths) : ∃ c, fs.read p = some c := by
  induction fs with
  | nil => simp [FS.paths] at h
  | cons e es ih =>
    by_cases he : e.1 = p
    · exact ⟨e.2, by simp [FS.read, he]⟩
    · simp only [FS.paths, List.map_cons, List.mem_cons] at h
      rcases h with h1 | h1
      · exact absurd h1.symm he
      · obtain ⟨c, hc⟩ := ih h1
        exact ⟨c, by simp [FS.read, he, hc]⟩

theorem FS.paths_write_of_mem {fs : FS} {p : Path} (s : String)
    (h : p ∈ fs.paths) : (fs.write p s).paths = fs.paths := by
  induction fs with
  | nil => simp [FS.paths] at h
  | cons e es ih =>
    by_cases he : e.1 = p
    · simp [FS.write, he, FS.paths]
    · simp only [FS.paths, List.map_cons, List.mem_cons] at h
      rcases h with h1 | h1
      · exact absurd h1.symm he
      · have h2 := ih h1
        simp only [FS.paths] at h2 ⊢
        simp [FS.write, he, h2]

/-! ## Path prefix lemmas -/

theorem startsWith_append (root rest : Path) : startsWith root (root ++ rest) = true := by
  induction root with
  | nil => simp [startsWith]
  | cons a as ih => simp [startsWith, ih]

theorem eq_append_drop_of_startsWith {root p : Path} (h : startsWith root p = true) :
    root ++ p.drop root.length = p := by
  induction root generalizing p with
  | nil => simp
  | cons a as ih =>
    cases p with
    | nil => simp [startsWith] at h
    | cons b bs =>
      simp only [startsWith, Bool.and_eq_true, beq_iff_eq] at h
      simp only [List.cons_append, List.length_cons, List.drop_succ_cons]
      rw [h.1, ih h.2]

theorem drop_inj_of_startsWith {root p q : Path}
    (hp : startsWith root p = true) (hq : startsWith root q = true)
    (h : p.drop root.length = q.drop root.length) : p = q := by
  rw [← eq_append_drop_of_startsWith hp, ← eq_append_drop_of_startsWith hq, h]

theorem startsWith_trans {a b p : Path} (hab : startsWith a b = true)
    (hbp : startsWith b p = true) : startsWith a p = true := by
  induction a generalizing b p with
  | nil => simp [startsWith]
  | cons x xs ih =>
    cases b with
    | nil => simp [startsWith] at hab
    | cons y ys =>
      cases p with
      | nil => simp [startsWith] at hbp
      | cons z zs =>
        simp only [startsWith, Bool.and_eq_true, beq_iff_eq] at hab hbp ⊢
        exact ⟨hab.1.trans hbp.1, ih hab.2 hbp.2⟩

theorem startsWith_total_of_common {a b p : Path}
    (ha : startsWith a p = true) (hb : startsWith b p = true) :
    startsWith a b = true ∨ startsWith b a = true := by
  induction p generalizing a b with
  | nil =>
    cases a with
    | nil => exact Or.inl (by simp [startsWith])
    | cons x xs => simp [startsWith] at ha
  | cons z zs ih =>
    cases a with
    | nil => exact Or.inl (by simp [startsWith])
    | cons x xs =>
      cases b with
      | nil => exact Or.inr (by simp [startsWith])
      | cons y ys =>
        simp only [startsWith, Bool.and_eq_true, beq_iff_eq] at ha hb ⊢
        rcases ih ha.2 hb.2 with h | h
        · exact Or.inl ⟨ha.1.trans hb.1.symm, h⟩
        · exact Or.inr ⟨hb.1.trans ha.1.symm, h⟩

/-! ## Membership in the walked file lists -/

theorem mem_walk {fs : FS} {root p : Path} (h : p ∈ fs.walk root) :
    p ∈ fs.paths ∧ startsWith root p = true := by
  unfold FS.walk at h
  exact ⟨(List.mem_filter.1 h).1, (List.mem_filter.1 h).2⟩

theorem mem_rsFiles {fs : FS} {root p : Path} (h : p ∈ rsFiles fs root) :
    p ∈ fs.paths ∧ startsWith root p = true ∧ isRustPath p = true :=
  ⟨(mem_walk (List.mem_filter.1 h).1).1, (mem_walk (List.mem_filter.1 h).1).2,
    (List.mem_filter.1 h).2⟩

theorem mem_manifestFiles {fs : FS} {root p : Path} (h : p ∈ manifestFiles fs root) :
    p ∈ fs.paths ∧ startsWith root p = true ∧ p.getLast? = some "Cargo.toml" :=
  ⟨(mem_walk (List.mem_filter.1 h).1).1, (mem_walk (List.mem_filter.1 h).1).2,
    by have := (List.mem_filter.1 h).2; simpa using this⟩

theorem rsFiles_nodup {fs : FS} (root : Path) (h : fs.paths.Nodup) :
    (rsFiles fs root).Nodup :=
  ((h.filter _).filter _)

theorem manifestFiles_nodup {fs : FS} (root : Path) (h : fs.paths.Nodup) :
    (manifestFiles fs root).Nodup :=
  ((h.filter _).filter _)

theorem stripRoot_eq {root p : Path} (h : startsWith root p = true) :
    stripRoot root p = some (p.drop root.length) := by
  simp [stripRoot, h]

/-! ## Step-level characterisations -/

theorem RunSt.emit_fs (st : RunSt) (evs : List Event) : (st.emit evs).fs = st.fs := rfl

theorem RunSt.emit_err (st : RunSt) (evs : List Event) : (st.emit evs).err = st.err := rfl

theorem process_file_before (eng : Engine) (cfg : ObfuscateConfig) (rel : Path)
    (c : String) : (process_file eng cfg rel c).1.2.2 = some c := by
  unfold process_file
  cases eng cfg rel c <;> rfl

theorem process_file_snd (eng : Engine) (cfg : ObfuscateConfig) (rel : Path)
    (c : String) : (process_file eng cfg rel c).2 = [] ∨
      (process_file eng cfg rel c).2 = [Event.parseWarning rel] := by
  unfold process_file
  cases eng cfg rel c with
  | parseFailure => exact Or.inr rfl
  | emitted t => exact Or.inl rfl

theorem transformStep_inactive {eng : Engine} {cfg : ObfuscateConfig} {root : Path}
    {format dryRun : Bool} {diffCtx : Option Nat} {verbose : Bool}
    {st : RunSt} {p : Path} {e : Err} (h : st.err = some e) :
    transformStep eng cfg root format dryRun diffCtx verbose st p = st := by
  unfold transformStep
  rw [h]

theorem patchStep_inactive {st : RunSt} {p : Path} {e : Err} (h : st.err = some e) :
    patchStep st p = st := by
  unfold patchStep
  rw [h]

theorem formatStep_inactive {fmt : Rustfmt} {st : RunSt} {p : Path} {e : Err}
    (h : st.err = some e) : formatStep fmt st p = st := by
  unfold formatStep
  rw [h]

/-- Full characterisation of one active transform iteration on an
existing file. -/
theorem transformStep_eq (eng : Engine) (cfg : ObfuscateConfig) (root : Path)
    (format dryRun : Bool) (diffCtx : Option Nat) (verbose : Bool)
    {st : RunSt} {p : Path} {c : String}
    (hok : st.err = none) (hsw : startsWith root p = true)
    (hc : st.fs.read p = some c) :
    transformStep eng cfg root format dryRun diffCtx verbose st p =
      { fs := if (process_file eng cfg (p.drop root.length) c).1.2.1 = true ∧ dryRun = false
              then st.fs.write p (process_file eng cfg (p.drop root.length) c).1.1
              else st.fs,
        events := st.events ++
          ((process_file eng cfg (p.drop root.length) c).2 ++
            (if verbose then
              [.verboseLine (p.drop root.length)
                (process_file eng cfg (p.drop root.length) c).1.2.1] else []) ++
            (if (process_file eng cfg (p.drop root.length) c).1.2.1 then
              ((match diffCtx with
                | some _ => [Event.diffShown (p.drop root.length)]
                | none => []) ++
               (if dryRun then [] else [.writingMsg p]))
             else [])),
        err := none } := by
  unfold transformStep
  rw [hok, stripRoot_eq hsw, hc]
  cases heng : eng cfg (p.drop root.length) c with
  | parseFailure =>
    simp only [process_file, heng]
    cases verbose <;> cases dryRun <;> cases diffCtx <;>
      simp [RunSt.emit, hok]
  | emitted t =>
    simp only [process_file, heng]
    cases hbe : (t != c) <;> cases verbose <;> cases dryRun <;> cases diffCtx <;>
      simp [RunSt.emit, hok, write_transformed, hbe]

/-- Full characterisation of one active patch iteration on an existing
manifest. -/
theorem patchStep_eq {st : RunSt} {p : Path} {c : String}
    (hok : st.err = none) (hc : st.fs.read p = some c) :
    patchStep st p =
      (match parseToml c with
       | none => st.fail (.tomlParseErr p)
       | some doc =>
         if doc.containsKey "package" then
           match patchDoc doc with
           | none => st.fail (.depsNotTable p)
           | some doc2 =>
             { fs := st.fs.write p doc2.toText,
               events := st.events ++ [.patchedMsg p], err := none }
         else st.emit [.skipVirtual p]) := by
  obtain ⟨fs0, ev0, err0⟩ := st
  simp only at hok hc
  subst hok
  unfold patchStep
  simp only [hc]
  cases parseToml c with
  | none => rfl
  | some doc =>
    split
    · cases patchDoc doc <;> rfl
    · rfl

/-- Full characterisation of one active format iteration on an existing
file. -/
theorem formatStep_eq {fmt : Rustfmt} {st : RunSt} {p : Path} {c : String}
    (hok : st.err = none) (hc : st.fs.read p = some c) :
    formatStep fmt st p =
      (match fmt p c with
       | .error _ => st.emit [.fmtWarning p]
       | .ok newText => { st with fs := st.fs.write p newText }) := by
  unfold formatStep
  rw [hok, hc]

theorem transformStep_stripFail {eng : Engine} {cfg : ObfuscateConfig} {root : Path}
    {format dryRun : Bool} {diffCtx : Option Nat} {verbose : Bool}
    {st : RunSt} {p : Path} (hok : st.err = none) (hsw : startsWith root p = false) :
    transformStep eng cfg root format dryRun diffCtx verbose st p =
      st.fail (.stripRootErr p) := by
  unfold transformStep
  rw [hok]
  simp [stripRoot, hsw]

theorem transformStep_readFail {eng : Engine} {cfg : ObfuscateConfig} {root : Path}
    {format dryRun : Bool} {diffCtx : Option Nat} {verbose : Bool}
    {st : RunSt} {p : Path} (hok : st.err = none) (hsw : startsWith root p = true)
    (hc : st.fs.read p = none) :
    transformStep eng cfg root format dryRun diffCtx verbose st p =
      st.fail (.ioErr p) := by
  unfold transformStep
  rw [hok, stripRoot_eq hsw, hc]

theorem patchStep_readFail {st : RunSt} {p : Path} (hok : st.err = none)
    (hc : st.fs.read p = none) : patchStep st p = st.fail (.ioErr p) := by
  unfold patchStep
  rw [hok, hc]

theorem formatStep_readFail {fmt : Rustfmt} {st : RunSt} {p : Path}
    (hok : st.err = none) (hc : st.fs.read p = none) : formatStep fmt st p = st := by
  unfold formatStep
  rw [hok, hc]

/-- Every step either leaves the filesystem alone or writes exactly the
path it processes. -/
theorem transformStep_fs_cases (eng : Engine) (cfg : ObfuscateConfig) (root : Path)
    (format dryRun : Bool) (diffCtx : Option Nat) (verbose : Bool)
    (st : RunSt) (p : Path) :
    (transformStep eng cfg root format dryRun diffCtx verbose st p).fs = st.fs ∨
      ∃ t, (transformStep eng cfg root format dryRun diffCtx verbose st p).fs =
        st.fs.write p t := by
  cases herr : st.err with
  | some e => rw [transformStep_inactive herr]; exact Or.inl rfl
  | none =>
    cases hsw : startsWith root p with
    | false => rw [transformStep_stripFail herr hsw]; exact Or.inl rfl
    | true =>
      cases hc : st.fs.read p with
      | none => rw [transformStep_readFail herr hsw hc]; exact Or.inl rfl
      | some c =>
        rw [transformStep_eq eng cfg root format dryRun diffCtx verbose herr hsw hc]
        by_cases hcond : (process_file eng cfg (p.drop root.length) c).1.2.1 = true ∧
            dryRun = false
        · exact Or.inr ⟨(process_file eng cfg (p.drop root.length) c).1.1,
            by simp [hcond]⟩
        · exact Or.inl (by simp [hcond])

theorem patchStep_fs_cases (st : RunSt) (p : Path) :
    (patchStep st p).fs = st.fs ∨ ∃ t, (patchStep st p).fs = st.fs.write p t := by
  cases herr : st.err with
  | some e => rw [patchStep_inactive herr]; exact Or.inl rfl
  | none =>
    cases hc : st.fs.read p with
    | none => rw [patchStep_readFail herr hc]; exact Or.inl rfl
    | some c =>
      rw [patchStep_eq herr hc]
      cases parseToml c with
      | none => exact Or.inl rfl
      | some doc =>
        by_cases hpkg : doc.containsKey "package" = true
        · cases hpd : patchDoc doc with
          | none => simp [hpkg, hpd]; exact Or.inl rfl
          | some doc2 => simp only [hpkg, if_true, hpd]; exact Or.inr ⟨_, rfl⟩
        · simp only [if_neg hpkg]; exact Or.inl rfl

theorem formatStep_fs_cases (fmt : Rustfmt) (st : RunSt) (p : Path) :
    (formatStep fmt st p).fs = st.fs ∨ ∃ t, (formatStep fmt st p).fs = st.fs.write p t := by
  cases herr : st.err with
  | some e => rw [formatStep_inactive herr]; exact Or.inl rfl
  | none =>
    cases hc : st.fs.read p with
    | none => rw [formatStep_readFail herr hc]; exact Or.inl rfl
    | some c =>
      rw [formatStep_eq herr hc]
      cases fmt p c with
      | error e => exact Or.inl rfl
      | ok newText => exact Or.inr ⟨newText, rfl⟩

theorem read_ne_of_fs_cases {fs2 fs1 : FS} {p q : Path}
    (h : fs2 = fs1 ∨ ∃ t, fs2 = fs1.write p t) (hne : q ≠ p) :
    fs2.read q = fs1.read q := by
  rcases h with h | ⟨t, h⟩
  · rw [h]
  · rw [h, FS.read_write_ne _ _ hne]

theorem paths_of_fs_cases {fs2 fs1 : FS} {p : Path}
    (h : fs2 = fs1 ∨ ∃ t, fs2 = fs1.write p t) (hp : p ∈ fs1.paths) :
    fs2.paths = fs1.paths := by
  rcases h with h | ⟨t, h⟩
  · rw [h]
  · rw [h, FS.paths_write_of_mem _ hp]

/-! ## Generic fold lemmas -/

theorem foldl_inv (P : RunSt → Prop) {step : RunSt → Path → RunSt} {L : List Path}
    (h : ∀ st p, p ∈ L → P st → P (step st p)) :
    ∀ st : RunSt, P st → P (L.foldl step st) := by
  induction L with
  | nil => intro st hst; exact hst
  | cons p ps ih =>
    intro st hst
    rw [List.foldl_cons]
    exact ih (fun st2 q hq hP => h st2 q (List.mem_cons.2 (Or.inr hq)) hP) _
      (h st p (List.mem_cons_self _ _) hst)

theorem foldl_read_preserved {step : RunSt → Path → RunSt} {L : List Path} {q : Path}
    (h : ∀ st p, p ∈ L → (step st p).fs.read q = st.fs.read q) :
    ∀ st : RunSt, (L.foldl step st).fs.read q = st.fs.read q := by
  induction L with
  | nil => intro st; rfl
  | cons p ps ih =>
    intro st
    rw [List.foldl_cons,
      ih (fun st2 x hx => h st2 x (List.mem_cons.2 (Or.inr hx))),
      h st p (List.mem_cons_self _ _)]

theorem foldl_events_mono {step : RunSt → Path → RunSt} {L : List Path}
    (h : ∀ st p, p ∈ L → ∃ tail, (step st p).events = st.events ++ tail) :
    ∀ st : RunSt, ∃ tail, (L.foldl step st).events = st.events ++ tail := by
  induction L with
  | nil => intro st; exact ⟨[], by simp⟩
  | cons p ps ih =>
    intro st
    rw [List.foldl_cons]
    obtain ⟨t1, ht1⟩ := h st p (List.mem_cons_self _ _)
    obtain ⟨t2, ht2⟩ := ih (fun st2 x hx => h st2 x (List.mem_cons.2 (Or.inr hx)))
      (step st p)
    exact ⟨t1 ++ t2, by rw [ht2, ht1, List.append_assoc]⟩

theorem foldl_inactive {step : RunSt → Path → RunSt}
    (hstep : ∀ st p e, st.err = some e → step st p = st) {L : List Path} :
    ∀ {st : RunSt} {e : Err}, st.err = some e → L.foldl step st = st := by
  induction L with
  | nil => intro st e _; rfl
  | cons p ps ih =>
    intro st e h
    rw [List.foldl_cons, hstep st p e h, ih h]

theorem exists_split_of_mem_nodup {L : List Path} {p : Path} (h : p ∈ L)
    (hnd : L.Nodup) : ∃ L1 L2, L = L1 ++ p :: L2 ∧ p ∉ L1 ∧ p ∉ L2 := by
  obtain ⟨L1, L2, rfl⟩ := List.append_of_mem h
  refine ⟨L1, L2, rfl, ?_, ?_⟩
  · intro hp1
    have := (List.nodup_append.1 hnd).2.2
    exact this hp1 (List.mem_cons_self _ _)
  · have := (List.nodup_append.1 hnd).2.1
    exact (List.nodup_cons.1 this).1

/-! ## Run-level invariants -/

theorem transformStep_paths (eng : Engine) (cfg : ObfuscateConfig) (root : Path)
    (format dryRun : Bool) (diffCtx : Option Nat) (verbose : Bool)
    (st : RunSt) (p : Path) :
    (transformStep eng cfg root format dryRun diffCtx verbose st p).fs.paths =
      st.fs.paths := by
  cases herr : st.err with
  | some e => rw [transformStep_inactive herr]
  | none =>
    cases hsw : startsWith root p with
    | false => rw [transformStep_stripFail herr hsw]; rfl
    | true =>
      cases hc : st.fs.read p with
      | none => rw [transformStep_readFail herr hsw hc]; rfl
      | some c =>
        exact paths_of_fs_cases
          (transformStep_fs_cases eng cfg root format dryRun diffCtx verbose st p)
          (FS.mem_paths_of_read hc)

theorem patchStep_paths (st : RunSt) (p : Path) :
    (patchStep st p).fs.paths = st.fs.paths := by
  cases herr : st.err with
  | some e => rw [patchStep_inactive herr]
  | none =>
    cases hc : st.fs.read p with
    | none => rw [patchStep_readFail herr hc]; rfl
    | some c =>
      exact paths_of_fs_cases (patchStep_fs_cases st p) (FS.mem_paths_of_read hc)

theorem formatStep_paths (fmt : Rustfmt) (st : RunSt) (p : Path) :
    (formatStep fmt st p).fs.paths = st.fs.paths := by
  cases herr : st.err with
  | some e => rw [formatStep_inactive herr]
  | none =>
    cases hc : st.fs.read p with
    | none => rw [formatStep_readFail herr hc]
    | some c =>
      exact paths_of_fs_cases (formatStep_fs_cases fmt st p) (FS.mem_paths_of_read hc)

theorem transform_paths (eng : Engine) (root : Path) (cfg : ObfuscateConfig)
    (format dryRun : Bool) (diffCtx : Option Nat) (verbose : Bool) (fs : FS) :
    (transform_rust_files eng root cfg format dryRun diffCtx verbose fs).fs.paths =
      fs.paths := by
  unfold transform_rust_files
  exact foldl_inv (fun st => st.fs.paths = fs.paths)
    (fun st p _ hP => (transformStep_paths _ _ _ _ _ _ _ st p).trans hP) _ rfl

theorem patch_paths (root : Path) (fs : FS) :
    (patch_cargo_toml root fs).fs.paths = fs.paths := by
  unfold patch_cargo_toml
  exact foldl_inv (fun st => st.fs.paths = fs.paths)
    (fun st p _ hP => (patchStep_paths st p).trans hP) _ rfl

theorem format_paths (fmt : Rustfmt) (root : Path) (fs : FS) :
    (format_rust_files fmt root fs).fs.paths = fs.paths := by
  unfold format_rust_files
  exact foldl_inv (fun st => st.fs.paths = fs.paths)
    (fun st p _ hP => (formatStep_paths fmt st p).trans hP) _ rfl

/-- Any event a transform step adds concerns the file it processes. -/
theorem transformStep_event_origin {eng : Engine} {cfg : ObfuscateConfig} {root : Path}
    {format dryRun : Bool} {diffCtx : Option Nat} {verbose : Bool}
    {st : RunSt} {x : Path} {ev : Event}
    (h : ev ∈ (transformStep eng cfg root format dryRun diffCtx verbose st x).events) :
    ev ∈ st.events ∨
      (∃ b, ev = .verboseLine (x.drop root.length) b) ∨
      ev = .diffShown (x.drop root.length) ∨
      ev = .parseWarning (x.drop root.length) ∨
      ev = .writingMsg x := by
  cases herr : st.err with
  | some e => rw [transformStep_inactive herr] at h; exact Or.inl h
  | none =>
    cases hsw : startsWith root x with
    | false => rw [transformStep_stripFail herr hsw] at h; exact Or.inl h
    | true =>
      cases hc : st.fs.read x with
      | none => rw [transformStep_readFail herr hsw hc] at h; exact Or.inl h
      | some c =>
        rw [transformStep_eq eng cfg root format dryRun diffCtx verbose herr hsw hc] at h
        dsimp only at h
        simp only [List.mem_append] at h
        rcases h with h | ((h | h) | h)
        · exact Or.inl h
        · cases heng : eng cfg (x.drop root.length) c with
          | parseFailure =>
            simp only [process_file, heng, List.mem_singleton] at h
            exact Or.inr (Or.inr (Or.inr (Or.inl h)))
          | emitted t =>
            simp [process_file, heng] at h
        · cases verbose with
          | false => simp at h
          | true =>
            simp only [if_true, List.mem_singleton] at h
            exact Or.inr (Or.inl ⟨_, h⟩)
        · cases hch : (process_file eng cfg (x.drop root.length) c).1.2.1 with
          | false => rw [hch] at h; simp at h
          | true =>
            rw [hch] at h
            simp only [if_true, List.mem_append] at h
            rcases h with h | h
            · cases diffCtx with
              | none => simp at h
              | some k =>
                simp only [List.mem_singleton] at h
                exact Or.inr (Or.inr (Or.inl h))
            · cases dryRun with
              | true => simp at h
              | false =>
                have h2 : ev = Event.writingMsg x := by simpa using h
                exact Or.inr (Or.inr (Or.inr (Or.inr h2)))

/-- Transform steps on other files do not touch this file's events
about `rel`, nor its content. -/
theorem transform_fold_frame {eng : Engine} {cfg : ObfuscateConfig} {root : Path}
    {format dryRun : Bool} {diffCtx : Option Nat} {verbose : Bool}
    {L : List Path} {q : Path} (hq : q ∉ L) (st : RunSt) :
    ((L.foldl (transformStep eng cfg root format dryRun diffCtx verbose) st).fs.read q
      = st.fs.read q) :=
  foldl_read_preserved
    (fun st2 x hx => read_ne_of_fs_cases
      (transformStep_fs_cases eng cfg root format dryRun diffCtx verbose st2 x)
      (fun hqx => hq (by rw [hqx]; exact hx))) st

theorem transformStep_events_mono (eng : Engine) (cfg : ObfuscateConfig) (root : Path)
    (format dryRun : Bool) (diffCtx : Option Nat) (verbose : Bool)
    (st : RunSt) (x : Path) :
    ∃ tail, (transformStep eng cfg root format dryRun diffCtx verbose st x).events =
      st.events ++ tail := by
  cases herr : st.err with
  | some e => rw [transformStep_inactive herr]; exact ⟨[], by simp⟩
  | none =>
    cases hsw : startsWith root x with
    | false => rw [transformStep_stripFail herr hsw]; exact ⟨[], by simp [RunSt.fail]⟩
    | true =>
      cases hc : st.fs.read x with
      | none => rw [transformStep_readFail herr hsw hc]; exact ⟨[], by simp [RunSt.fail]⟩
      | some c =>
        rw [transformStep_eq eng cfg root format dryRun diffCtx verbose herr hsw hc]
        exact ⟨_, rfl⟩

theorem transform_fold_inv (eng : Engine) (cfg : ObfuscateConfig)
    (format dryRun : Bool) (diffCtx : Option Nat) (verbose : Bool)
    {root : Path} {fs : FS}
    {L : List Path} (hL : ∀ x ∈ L, x ∈ rsFiles fs root) :
    (L.foldl (transformStep eng cfg root format dryRun diffCtx verbose)
        (RunSt.init fs)).err = none ∧
      (L.foldl (transformStep eng cfg root format dryRun diffCtx verbose)
        (RunSt.init fs)).fs.paths = fs.paths :=
  foldl_inv (fun st => st.err = none ∧ st.fs.paths = fs.paths)
    (fun st x hx hP => by
      obtain ⟨hmem, hsw, _⟩ := mem_rsFiles (hL x hx)
      have hpp : x ∈ st.fs.paths := hP.2 ▸ hmem
      obtain ⟨c, hc⟩ := FS.read_isSome_of_mem_paths hpp
      refine ⟨?_, (transformStep_paths eng cfg root format dryRun diffCtx verbose
        st x).trans hP.2⟩
      rw [transformStep_eq eng cfg root format dryRun diffCtx verbose hP.1 hsw hc])
    (RunSt.init fs) ⟨rfl, rfl⟩

/-- `transform_rust_files` never raises: the only fallible operations it
performs itself are the strip and the read, which succeed on walked
files, and the engine's per-file failures are contained (spec §4.6). -/
theorem transform_err_none (eng : Engine) (root : Path) (cfg : ObfuscateConfig)
    (format dryRun : Bool) (diffCtx : Option Nat) (verbose : Bool) (fs : FS) :
    (transform_rust_files eng root cfg format dryRun diffCtx verbose fs).err = none := by
  unfold transform_rust_files
  exact (transform_fold_inv eng cfg format dryRun diffCtx verbose (fun x hx => hx)).1

/-- Master lemma about one `.rs` file across a whole transform run: its
final content, the diff/write events and the verbose line are governed
by the `changed` flag its own `process_file` call reports. -/
theorem transform_master (eng : Engine) (cfg : ObfuscateConfig) (root : Path)
    (format dryRun : Bool) (diffCtx : Option Nat) (verbose : Bool) {fs : FS}
    (hnd : fs.paths.Nodup) {p : Path} (hp : p ∈ rsFiles fs root)
    {c : String} (hc : fs.read p = some c) :
    ((process_file eng cfg (p.drop root.length) c).1.2.1 = false →
      (transform_rust_files eng root cfg format dryRun diffCtx verbose fs).fs.read p
          = some c ∧
        Event.diffShown (p.drop root.length) ∉
          (transform_rust_files eng root cfg format dryRun diffCtx verbose fs).events ∧
        Event.writingMsg p ∉
          (transform_rust_files eng root cfg format dryRun diffCtx verbose fs).events) ∧
    ((process_file eng cfg (p.drop root.length) c).1.2.1 = true → dryRun = false →
      (transform_rust_files eng root cfg format dryRun diffCtx verbose fs).fs.read p
        = some (process_file eng cfg (p.drop root.length) c).1.1) ∧
    (∀ ev ∈ (process_file eng cfg (p.drop root.length) c).2,
      ev ∈ (transform_rust_files eng root cfg format dryRun diffCtx verbose fs).events) ∧
    (verbose = true →
      Event.verboseLine (p.drop root.length)
          (process_file eng cfg (p.drop root.length) c).1.2.1 ∈
        (transform_rust_files eng root cfg format dryRun diffCtx verbose fs).events) := by
  obtain ⟨hmem, hsw, hrs⟩ := mem_rsFiles hp
  obtain ⟨L1, L2, hLeq, hpL1, hpL2⟩ :=
    exists_split_of_mem_nodup hp (rsFiles_nodup root hnd)
  have hL1sub : ∀ x ∈ L1, x ∈ rsFiles fs root := by
    intro x hx
    rw [hLeq]
    exact List.mem_append_left _ hx
  have hL2sub : ∀ x ∈ L2, x ∈ rsFiles fs root := by
    intro x hx
    rw [hLeq]
    exact List.mem_append_right _ (List.mem_cons.2 (Or.inr hx))
  have hxnep : ∀ {x : Path}, x ∈ rsFiles fs root → x ≠ p →
      ¬ (x.drop root.length = p.drop root.length) := by
    intro x hx hne hdrop
    exact hne (drop_inj_of_startsWith (mem_rsFiles hx).2.1 hsw hdrop)
  have hrun : transform_rust_files eng root cfg format dryRun diffCtx verbose fs =
      L2.foldl (transformStep eng cfg root format dryRun diffCtx verbose)
        (transformStep eng cfg root format dryRun diffCtx verbose
          (L1.foldl (transformStep eng cfg root format dryRun diffCtx verbose)
            (RunSt.init fs)) p) := by
    unfold transform_rust_files
    rw [hLeq, List.foldl_append, List.foldl_cons]
  have hinv1 := transform_fold_inv eng cfg format dryRun diffCtx verbose hL1sub
  have hread1 : (L1.foldl (transformStep eng cfg root format dryRun diffCtx verbose)
      (RunSt.init fs)).fs.read p = some c :=
    (transform_fold_frame hpL1 (RunSt.init fs)).trans hc
  have hNoDiff : ∀ (L' : List Path), (∀ x ∈ L', x ∈ rsFiles fs root ∧ x ≠ p) →
      ∀ st : RunSt, Event.diffShown (p.drop root.length) ∉ st.events →
      Event.diffShown (p.drop root.length) ∉
        (L'.foldl (transformStep eng cfg root format dryRun diffCtx verbose) st).events := by
    intro L' hL' st hst
    refine foldl_inv (fun st2 => Event.diffShown (p.drop root.length) ∉ st2.events)
      (fun st2 x hx hP hmem2 => ?_) st hst
    rcases transformStep_event_origin hmem2 with h | ⟨b, h⟩ | h | h | h
    · exact hP h
    · simp at h
    · injection h with h2
      exact hxnep (hL' x hx).1 (hL' x hx).2 h2.symm
    · simp at h
    · simp at h
  have hNoWrite : ∀ (L' : List Path), (∀ x ∈ L', x ∈ rsFiles fs root ∧ x ≠ p) →
      ∀ st : RunSt, Event.writingMsg p ∉ st.events →
      Event.writingMsg p ∉
        (L'.foldl (transformStep eng cfg root format dryRun diffCtx verbose) st).events := by
    intro L' hL' st hst
    refine foldl_inv (fun st2 => Event.writingMsg p ∉ st2.events)
      (fun st2 x hx hP hmem2 => ?_) st hst
    rcases transformStep_event_origin hmem2 with h | ⟨b, h⟩ | h | h | h
    · exact hP h
    · simp at h
    · simp at h
    · simp at h
    · injection h with h2
      exact (hL' x hx).2 h2.symm
  have hL1tag : ∀ x ∈ L1, x ∈ rsFiles fs root ∧ x ≠ p :=
    fun x hx => ⟨hL1sub x hx, fun hxe => hpL1 (hxe ▸ hx)⟩
  have hL2tag : ∀ x ∈ L2, x ∈ rsFiles fs root ∧ x ≠ p :=
    fun x hx => ⟨hL2sub x hx, fun hxe => hpL2 (hxe ▸ hx)⟩
  have hdiff1 := hNoDiff L1 hL1tag (RunSt.init fs) (by simp [RunSt.init])
  have hwrite1 := hNoWrite L1 hL1tag (RunSt.init fs) (by simp [RunSt.init])
  have hst2eq := transformStep_eq eng cfg root format dryRun diffCtx verbose hinv1.1 hsw hread1
  refine ⟨?_, ?_, ?_, ?_⟩
  · intro hch
    refine ⟨?_, ?_, ?_⟩
    · rw [hrun, hst2eq, transform_fold_frame hpL2]
      dsimp only
      rw [hch, if_neg (by simp)]
      exact hread1
    · rw [hrun, hst2eq]
      apply hNoDiff L2 hL2tag
      dsimp only
      intro hmem2
      rw [hch] at hmem2
      simp only [Bool.false_eq_true, if_false, List.append_nil,
        List.mem_append] at hmem2
      rcases hmem2 with h | h | h
      · exact hdiff1 h
      · rcases process_file_snd eng cfg (p.drop root.length) c with he | he <;>
          rw [he] at h <;> simp at h
      · cases verbose <;> simp at h
    · rw [hrun, hst2eq]
      apply hNoWrite L2 hL2tag
      dsimp only
      intro hmem2
      rw [hch] at hmem2
      simp only [Bool.false_eq_true, if_false, List.append_nil,
        List.mem_append] at hmem2
      rcases hmem2 with h | h | h
      · exact hwrite1 h
      · rcases process_file_snd eng cfg (p.drop root.length) c with he | he <;>
          rw [he] at h <;> simp at h
      · cases verbose <;> simp at h
  · intro hch hdr
    rw [hrun, hst2eq, transform_fold_frame hpL2]
    dsimp only
    rw [hch, hdr, if_pos ⟨rfl, rfl⟩]
    exact FS.read_write_self _ _ _
  · intro ev hev
    rw [hrun]
    obtain ⟨t2, ht2⟩ := foldl_events_mono
      (fun st2 x hx => transformStep_events_mono eng cfg root format dryRun
        diffCtx verbose st2 x)
      (transformStep eng cfg root format dryRun diffCtx verbose
        (L1.foldl (transformStep eng cfg root format dryRun diffCtx verbose)
          (RunSt.init fs)) p)
    rw [ht2, hst2eq]
    dsimp only
    simp only [List.mem_append]
    exact Or.inl (Or.inr (Or.inl (Or.inl hev)))
  · intro hv
    rw [hrun]
    obtain ⟨t2, ht2⟩ := foldl_events_mono
      (fun st2 x hx => transformStep_events_mono eng cfg root format dryRun
        diffCtx verbose st2 x)
      (transformStep eng cfg root format dryRun diffCtx verbose
        (L1.foldl (transformStep eng cfg root format dryRun diffCtx verbose)
          (RunSt.init fs)) p)
    rw [ht2, hst2eq]
    dsimp only
    rw [hv]
    simp [List.mem_append]

theorem patch_fold_frame {L : List Path} {q : Path} (hq : q ∉ L) (st : RunSt) :
    ((L.foldl patchStep st).fs.read q = st.fs.read q) :=
  foldl_read_preserved
    (fun st2 x hx => read_ne_of_fs_cases (patchStep_fs_cases st2 x)
      (fun hqx => hq (by rw [hqx]; exact hx))) st

theorem patchStep_parse_fail {st : RunSt} {p : Path} {c : String}
    (hok : st.err = none) (hc : st.fs.read p = some c)
    (hparse : parseToml c = none) :
    patchStep st p = st.fail (.tomlParseErr p) := by
  rw [patchStep_eq hok hc, hparse]

theorem patchStep_skip {st : RunSt} {p : Path} {c : String} {d : Doc}
    (hok : st.err = none) (hc : st.fs.read p = some c)
    (hparse : parseToml c = some d) (hpkg : d.containsKey "package" = false) :
    patchStep st p = st.emit [.skipVirtual p] := by
  rw [patchStep_eq hok hc, hparse]
  simp only [hpkg, Bool.false_eq_true, if_false]

theorem patchStep_table_fail {st : RunSt} {p : Path} {c : String} {d : Doc}
    (hok : st.err = none) (hc : st.fs.read p = some c)
    (hparse : parseToml c = some d) (hpkg : d.containsKey "package" = true)
    (hpd : patchDoc d = none) :
    patchStep st p = st.fail (.depsNotTable p) := by
  rw [patchStep_eq hok hc, hparse]
  simp only [hpkg, if_true, hpd]

theorem patchStep_write {st : RunSt} {p : Path} {c : String} {d d2 : Doc}
    (hok : st.err = none) (hc : st.fs.read p = some c)
    (hparse : parseToml c = some d) (hpkg : d.containsKey "package" = true)
    (hpd : patchDoc d = some d2) :
    patchStep st p =
      ⟨st.fs.write p d2.toText, st.events ++ [.patchedMsg p], none⟩ := by
  rw [patchStep_eq hok hc, hparse]
  simp only [hpkg, if_true, hpd]

theorem patchStep_events_mono (st : RunSt) (x : Path) :
    ∃ tail, (patchStep st x).events = st.events ++ tail := by
  cases herr : st.err with
  | some e => rw [patchStep_inactive herr]; exact ⟨[], by simp⟩
  | none =>
    cases hc : st.fs.read x with
    | none => rw [patchStep_readFail herr hc]; exact ⟨[], by simp [RunSt.fail]⟩
    | some c =>
      cases hparse : parseToml c with
      | none =>
        rw [patchStep_parse_fail herr hc hparse]
        exact ⟨[], by simp [RunSt.fail]⟩
      | some doc =>
        by_cases hpkg : doc.containsKey "package" = true
        · cases hpd : patchDoc doc with
          | none =>
            rw [patchStep_table_fail herr hc hparse hpkg hpd]
            exact ⟨[], by simp [RunSt.fail]⟩
          | some doc2 =>
            rw [patchStep_write herr hc hparse hpkg hpd]
            exact ⟨[.patchedMsg x], rfl⟩
        · have hpkg2 : doc.containsKey "package" = false := by
            cases hb : doc.containsKey "package"
            · rfl
            · exact absurd hb hpkg
          rw [patchStep_skip herr hc hparse hpkg2]
          exact ⟨[.skipVirtual x], rfl⟩

theorem patch_fold_err_persist {L : List Path} {st : RunSt} {e : Err}
    (h : st.err = some e) : L.foldl patchStep st = st :=
  foldl_inactive (fun _ _ _ he => patchStep_inactive he) h

/-- Master lemma about one manifest across a whole patch run. -/
theorem patch_master {fs : FS} {root : Path} (hnd : fs.paths.Nodup)
    {p : Path} (hp : p ∈ manifestFiles fs root) {c : String}
    (hc : fs.read p = some c) :
    ((patch_cargo_toml root fs).err = none →
      ∃ d, parseToml c = some d ∧
        (d.containsKey "package" = true → ∃ d2, patchDoc d = some d2 ∧
          (patch_cargo_toml root fs).fs.read p = some d2.toText)) ∧
    (∀ d, parseToml c = some d → d.containsKey "package" = false →
      (patch_cargo_toml root fs).fs.read p = some c ∧
      ((patch_cargo_toml root fs).err = none →
        Event.skipVirtual p ∈ (patch_cargo_toml root fs).events)) := by
  obtain ⟨L1, L2, hLeq, hpL1, hpL2⟩ :=
    exists_split_of_mem_nodup hp (manifestFiles_nodup root hnd)
  have hrun : patch_cargo_toml root fs =
      L2.foldl patchStep (patchStep (L1.foldl patchStep (RunSt.init fs)) p) := by
    unfold patch_cargo_toml
    rw [hLeq, List.foldl_append, List.foldl_cons]
  have hread1 : (L1.foldl patchStep (RunSt.init fs)).fs.read p = some c :=
    (patch_fold_frame hpL1 (RunSt.init fs)).trans hc
  cases herr1 : (L1.foldl patchStep (RunSt.init fs)).err with
  | some e =>
    have hfinal : patch_cargo_toml root fs = L1.foldl patchStep (RunSt.init fs) := by
      rw [hrun, patchStep_inactive herr1, patch_fold_err_persist herr1]
    constructor
    · intro hok
      rw [hfinal] at hok
      exact absurd hok (by rw [herr1]; simp)
    · intro d hd hpkg
      refine ⟨by rw [hfinal]; exact hread1, fun hok => ?_⟩
      rw [hfinal] at hok
      exact absurd hok (by rw [herr1]; simp)
  | none =>
    constructor
    · intro hok
      cases hparse : parseToml c with
      | none =>
        rw [hrun, patchStep_parse_fail herr1 hread1 hparse,
          patch_fold_err_persist rfl] at hok
        exact absurd hok (by simp [RunSt.fail])
      | some d =>
        refine ⟨d, rfl, fun hpkg => ?_⟩
        cases hpd : patchDoc d with
        | none =>
          rw [hrun, patchStep_table_fail herr1 hread1 hparse hpkg hpd,
            patch_fold_err_persist rfl] at hok
          exact absurd hok (by simp [RunSt.fail])
        | some d2 =>
          refine ⟨d2, rfl, ?_⟩
          rw [hrun, patchStep_write herr1 hread1 hparse hpkg hpd,
            patch_fold_frame hpL2]
          exact FS.read_write_self _ _ _
    · intro d hd hpkg
      refine ⟨?_, fun _ => ?_⟩
      · rw [hrun, patchStep_skip herr1 hread1 hd hpkg, patch_fold_frame hpL2]
        exact hread1
      · rw [hrun, patchStep_skip herr1 hread1 hd hpkg]
        obtain ⟨t2, ht2⟩ := foldl_events_mono
          (fun st2 x _ => patchStep_events_mono st2 x)
          ((L1.foldl patchStep (RunSt.init fs)).emit [Event.skipVirtual p])
        rw [ht2]
        simp [RunSt.emit]

/-! ## Second-run stability of the patcher -/

/-- If every listed manifest is already in patched form, a patch pass
writes every file back unchanged and raises nothing. -/
theorem patch_fold_fix {F : FS} {L : List Path}
    (hfix : ∀ p ∈ L, ∃ c d, F.read p = some c ∧ parseToml c = some d ∧
      (d.containsKey "package" = false ∨
        (d.containsKey "package" = true ∧ patchDoc d = some d ∧ d.toText = c))) :
    ∀ st : RunSt, st.err = none → st.fs = F →
      (L.foldl patchStep st).fs = F ∧ (L.foldl patchStep st).err = none := by
  induction L with
  | nil => intro st hok hfs; exact ⟨hfs, hok⟩
  | cons p ps ih =>
    intro st hok hfs
    obtain ⟨c, d, hcF, hparse, hcases⟩ := hfix p (List.mem_cons_self _ _)
    have hread : st.fs.read p = some c := by rw [hfs]; exact hcF
    have hfix2 : ∀ x ∈ ps, ∃ c d, F.read x = some c ∧ parseToml c = some d ∧
        (d.containsKey "package" = false ∨
          (d.containsKey "package" = true ∧ patchDoc d = some d ∧ d.toText = c)) :=
      fun x hx => hfix x (List.mem_cons.2 (Or.inr hx))
    rw [List.foldl_cons]
    rcases hcases with hnp | ⟨hpkg, hpd, htext⟩
    · rw [patchStep_skip hok hread hparse hnp]
      exact ih hfix2 _ hok hfs
    · rw [patchStep_write hok hread hparse hpkg hpd]
      refine ih hfix2 _ rfl ?_
      show st.fs.write p d.toText = F
      rw [htext, FS.write_self hread, hfs]

theorem manifestFiles_congr {fs1 fs2 : FS} (root : Path)
    (h : fs1.paths = fs2.paths) : manifestFiles fs1 root = manifestFiles fs2 root := by
  unfold manifestFiles FS.walk
  rw [h]

theorem rsFiles_congr {fs1 fs2 : FS} (root : Path)
    (h : fs1.paths = fs2.paths) : rsFiles fs1 root = rsFiles fs2 root := by
  unfold rsFiles FS.walk
  rw [h]

/-! ## Format-run lemmas -/

theorem formatStep_err (fmt : Rustfmt) (st : RunSt) (p : Path) :
    (formatStep fmt st p).err = st.err := by
  cases herr : st.err with
  | some e => rw [formatStep_inactive herr]; exact herr
  | none =>
    cases hc : st.fs.read p with
    | none => rw [formatStep_readFail herr hc]; exact herr
    | some c =>
      rw [formatStep_eq herr hc]
      cases fmt p c with
      | error e => exact herr
      | ok newText => exact herr

theorem format_fold_frame {fmt : Rustfmt} {L : List Path} {q : Path}
    (hq : q ∉ L) (st : RunSt) :
    ((L.foldl (formatStep fmt) st).fs.read q = st.fs.read q) :=
  foldl_read_preserved
    (fun st2 x hx => read_ne_of_fs_cases (formatStep_fs_cases fmt st2 x)
      (fun hqx => hq (by rw [hqx]; exact hx))) st

theorem formatStep_events_mono (fmt : Rustfmt) (st : RunSt) (x : Path) :
    ∃ tail, (formatStep fmt st x).events = st.events ++ tail := by
  cases herr : st.err with
  | some e => rw [formatStep_inactive herr]; exact ⟨[], by simp⟩
  | none =>
    cases hc : st.fs.read x with
    | none => rw [formatStep_readFail herr hc]; exact ⟨[], by simp⟩
    | some c =>
      rw [formatStep_eq herr hc]
      cases fmt x c with
      | error e => exact ⟨[.fmtWarning x], rfl⟩
      | ok newText => exact ⟨[], by simp⟩

theorem format_fold_err_none {fmt : Rustfmt} {L : List Path} :
    ∀ st : RunSt, st.err = none → (L.foldl (formatStep fmt) st).err = none :=
  fun st hok => foldl_inv (fun st2 => st2.err = none)
    (fun st2 x _ h2 => (formatStep_err fmt st2 x).trans h2) st hok

/-- Master lemma for the formatter: a spawn failure on one file leaves a
warning in the output. -/
theorem format_master {fmt : Rustfmt} {root : Path} {fs : FS}
    (hnd : fs.paths.Nodup) {p : Path} (hp : p ∈ rsFiles fs root) {c : String}
    (hc : fs.read p = some c) (hfail : fmt p c = .error ()) :
    Event.fmtWarning p ∈ (format_rust_files fmt root fs).events := by
  obtain ⟨L1, L2, hLeq, hpL1, hpL2⟩ :=
    exists_split_of_mem_nodup hp (rsFiles_nodup root hnd)
  have hrun : format_rust_files fmt root fs =
      L2.foldl (formatStep fmt) (formatStep fmt
        (L1.foldl (formatStep fmt) (RunSt.init fs)) p) := by
    unfold format_rust_files
    rw [hLeq, List.foldl_append, List.foldl_cons]
  have herr1 : (L1.foldl (formatStep fmt) (RunSt.init fs)).err = none :=
    format_fold_err_none _ rfl
  have hread1 : (L1.foldl (formatStep fmt) (RunSt.init fs)).fs.read p = some c :=
    (format_fold_frame hpL1 (RunSt.init fs)).trans hc
  rw [hrun, formatStep_eq herr1 hread1, hfail]
  obtain ⟨t2, ht2⟩ := foldl_events_mono
    (fun st2 x _ => formatStep_events_mono fmt st2 x)
    ((L1.foldl (formatStep fmt) (RunSt.init fs)).emit [Event.fmtWarning p])
  rw [ht2]
  simp [RunSt.emit]

/-! ## Copy lemmas -/

theorem FS.mem_of_read {fs : FS} {p : Path} {c : String}
    (h : fs.read p = some c) : (p, c) ∈ fs := by
  induction fs with
  | nil => simp [FS.read] at h
  | cons e es ih =>
    by_cases he : e.1 = p
    · simp only [FS.read, if_pos he] at h
      injection h with h2
      have : e = (p, c) := by
        rw [← he, ← h2]
      simp [this]
    · simp only [FS.read, if_neg he] at h
      exact List.mem_cons.2 (Or.inr (ih h))

/-- Files outside the destination tree are untouched by the copy. -/
theorem copy_read_not_under {fs : FS} {input output q : Path}
    (hq : startsWith output q = false) :
    (copy_full_structure fs input output).read q = fs.read q := by
  unfold copy_full_structure
  have h : ∀ (E : List (Path × String)) (acc : FS),
      (E.foldl (fun a e => a.write (output ++ e.1.drop input.length) e.2) acc).read q
        = acc.read q := by
    intro E
    induction E with
    | nil => intro acc; rfl
    | cons e es ih =>
      intro acc
      rw [List.foldl_cons, ih]
      apply FS.read_write_ne
      intro hqe
      rw [hqe, startsWith_append] at hq
      exact absurd hq (by simp)
  exact h _ fs

/-- Every file of the source tree appears verbatim at the corresponding
destination path after the copy. -/
theorem copy_read_target {fs : FS} {input output p : Path} {c : String}
    (hnd : fs.paths.Nodup) (hsw : startsWith input p = true)
    (hc : fs.read p = some c) :
    (copy_full_structure fs input output).read (output ++ p.drop input.length)
      = some c := by
  unfold copy_full_structure
  have hmemE : (p, c) ∈ fs.filter (fun e => startsWith input e.1) :=
    List.mem_filter.2 ⟨FS.mem_of_read hc, hsw⟩
  have hndE : ((fs.filter (fun e => startsWith input e.1)).map Prod.fst).Nodup :=
    List.Nodup.sublist (List.Sublist.map Prod.fst (List.filter_sublist fs)) hnd
  obtain ⟨E1, E2, hEeq⟩ := List.append_of_mem hmemE
  have hfilt : ∀ e ∈ E2, startsWith input e.1 = true := by
    intro e he
    have : e ∈ fs.filter (fun e => startsWith input e.1) := by
      rw [hEeq]
      exact List.mem_append_right _ (List.mem_cons.2 (Or.inr he))
    exact (List.mem_filter.1 this).2
  have hpne : ∀ e ∈ E2, e.1 ≠ p := by
    intro e he hep
    rw [hEeq] at hndE
    simp only [List.map_append, List.map_cons] at hndE
    have h2 := (List.nodup_append.1 hndE).2.1
    have h3 := (List.nodup_cons.1 h2).1
    exact h3 (hep ▸ List.mem_map_of_mem Prod.fst he)
  rw [hEeq, List.foldl_append, List.foldl_cons]
  have hframe : ∀ (E : List (Path × String)) (acc : FS),
      (∀ e ∈ E, startsWith input e.1 = true ∧ e.1 ≠ p) →
      (E.foldl (fun a e => a.write (output ++ e.1.drop input.length) e.2) acc).read
        (output ++ p.drop input.length) = acc.read (output ++ p.drop input.length) := by
    intro E
    induction E with
    | nil => intro acc _; rfl
    | cons e es ih =>
      intro acc hE
      rw [List.foldl_cons, ih _ (fun x hx => hE x (List.mem_cons.2 (Or.inr hx)))]
      apply FS.read_write_ne
      intro heq
      have h4 : p.drop input.length = e.1.drop input.length :=
        List.append_cancel_left heq
      exact (hE e (List.mem_cons_self _ _)).2
        (drop_inj_of_startsWith (hE e (List.mem_cons_self _ _)).1 hsw h4.symm)
  rw [hframe E2 _ (fun e he => ⟨hfilt e he, hpne e he⟩)]
  exact FS.read_write_self _ _ _

/-! ## Dry-run lemmas -/

theorem transformStep_dryRun_fs (eng : Engine) (cfg : ObfuscateConfig) (root : Path)
    (format : Bool) (diffCtx : Option Nat) (verbose : Bool) (st : RunSt) (p : Path) :
    (transformStep eng cfg root format true diffCtx verbose st p).fs = st.fs := by
  cases herr : st.err with
  | some e => rw [transformStep_inactive herr]
  | none =>
    cases hsw : startsWith root p with
    | false => rw [transformStep_stripFail herr hsw]; rfl
    | true =>
      cases hc : st.fs.read p with
      | none => rw [transformStep_readFail herr hsw hc]; rfl
      | some c =>
        rw [transformStep_eq eng cfg root format true diffCtx verbose herr hsw hc]
        simp

theorem transform_dryRun_fs (eng : Engine) (root : Path) (cfg : ObfuscateConfig)
    (format : Bool) (diffCtx : Option Nat) (verbose : Bool) (fs : FS) :
    (transform_rust_files eng root cfg format true diffCtx verbose fs).fs = fs := by
  unfold transform_rust_files
  exact foldl_inv (fun st => st.fs = fs)
    (fun st x _ h2 =>
      (transformStep_dryRun_fs eng cfg root format diffCtx verbose st x).trans h2)
    (RunSt.init fs) rfl

theorem transformStep_dryRun_no_write {eng : Engine} {cfg : ObfuscateConfig}
    {root : Path} {format : Bool} {diffCtx : Option Nat} {verbose : Bool}
    {st : RunSt} {x : Path} {w : Path}
    (h : Event.writingMsg w ∈
      (transformStep eng cfg root format true diffCtx verbose st x).events) :
    Event.writingMsg w ∈ st.events := by
  cases herr : st.err with
  | some e => rw [transformStep_inactive herr] at h; exact h
  | none =>
    cases hsw : startsWith root x with
    | false => rw [transformStep_stripFail herr hsw] at h; exact h
    | true =>
      cases hc : st.fs.read x with
      | none => rw [transformStep_readFail herr hsw hc] at h; exact h
      | some c =>
        rw [transformStep_eq eng cfg root format true diffCtx verbose herr hsw hc] at h
        dsimp only at h
        simp only [List.mem_append] at h
        rcases h with h | ((h | h) | h)
        · exact h
        · rcases process_file_snd eng cfg (x.drop root.length) c with he | he <;>
            rw [he] at h <;> simp at h
        · cases verbose <;> simp at h
        · by_cases hch : (process_file eng cfg (x.drop root.length) c).1.2.1 = true
          · rw [hch] at h
            simp only [if_true, List.mem_append] at h
            rcases h with h | h
            · cases diffCtx <;> simp at h
            · simp at h
          · have hch2 : (process_file eng cfg (x.drop root.length) c).1.2.1 = false := by
              cases hb : (process_file eng cfg (x.drop root.length) c).1.2.1
              · rfl
              · exact absurd hb hch
            rw [hch2] at h
            simp at h

theorem format_err_none (fmt : Rustfmt) (root : Path) (fs : FS) :
    (format_rust_files fmt root fs).err = none := by
  unfold format_rust_files
  exact foldl_inv (fun st => st.err = none)
    (fun st p _ hok => by
      cases hc : st.fs.read p with
      | none => rw [formatStep_readFail hok hc]; exact hok
      | some c =>
        rw [formatStep_eq hok hc]
        cases fmt p c with
        | error e => exact hok
        | ok newText => exact hok)
    (RunSt.init fs) rfl


/-! ## Run-level frame lemmas -/

theorem transform_read_not_under {eng : Engine} {cfg : ObfuscateConfig} {root : Path}
    {format dryRun : Bool} {diffCtx : Option Nat} {verbose : Bool} {fs : FS} {q : Path}
    (hq : startsWith root q = false) :
    (transform_rust_files eng root cfg format dryRun diffCtx verbose fs).fs.read q
      = fs.read q := by
  unfold transform_rust_files
  exact transform_fold_frame
    (fun hmem => by rw [(mem_rsFiles hmem).2.1] at hq; exact absurd hq (by simp))
    (RunSt.init fs)

theorem patch_read_not_under {root : Path} {fs : FS} {q : Path}
    (hq : startsWith root q = false) :
    (patch_cargo_toml root fs).fs.read q = fs.read q := by
  unfold patch_cargo_toml
  exact patch_fold_frame
    (fun hmem => by rw [(mem_manifestFiles hmem).2.1] at hq; exact absurd hq (by simp))
    (RunSt.init fs)

theorem format_read_not_under {fmt : Rustfmt} {root : Path} {fs : FS} {q : Path}
    (hq : startsWith root q = false) :
    (format_rust_files fmt root fs).fs.read q = fs.read q := by
  unfold format_rust_files
  exact format_fold_frame
    (fun hmem => by rw [(mem_rsFiles hmem).2.1] at hq; exact absurd hq (by simp))
    (RunSt.init fs)

theorem andThen_fs_read {st : RunSt} {f : FS → RunSt} {q : Path}
    (hf : ∀ fsx : FS, (f fsx).fs.read q = fsx.read q) :
    (st.andThen f).fs.read q = st.fs.read q := by
  unfold RunSt.andThen
  cases herr : st.err with
  | some e => rfl
  | none => exact hf st.fs

theorem andThen_err_none {st : RunSt} {f : FS → RunSt}
    (h : (st.andThen f).err = none) : st.err = none ∧ (f st.fs).err = none := by
  unfold RunSt.andThen at h
  cases herr : st.err with
  | some e =>
    rw [herr] at h
    exact absurd h (by simp [herr])
  | none =>
    rw [herr] at h
    exact ⟨rfl, h⟩

/-! ## The claims -/

/-- C9: the transform step modifies only files whose path extension is
exactly `rs`: every file without the `.rs` extension, and every `.rs`
file whose transform reports `changed = false`, is left byte-identical
by `transform_rust_files`. -/
theorem claim_C9_transform_touches_only_changed_rs (eng : Engine) (root : Path)
    (cfg : ObfuscateConfig) (format dryRun : Bool) (diffCtx : Option Nat)
    (verbose : Bool) (fs : FS) (hnd : fs.paths.Nodup) (p : Path) :
    (isRustPath p = false →
      (transform_rust_files eng root cfg format dryRun diffCtx verbose fs).fs.read p
        = fs.read p) ∧
    (∀ c, fs.read p = some c → p ∈ rsFiles fs root →
      (process_file eng cfg (p.drop root.length) c).1.2.1 = false →
      (transform_rust_files eng root cfg format dryRun diffCtx verbose fs).fs.read p
        = some c) := by
  constructor
  · intro hrs
    unfold transform_rust_files
    exact transform_fold_frame
      (fun hmem => by rw [(mem_rsFiles hmem).2.2] at hrs; exact absurd hrs (by simp))
      (RunSt.init fs)
  · intro c hc hp hch
    exact ((transform_master eng cfg root format dryRun diffCtx verbose hnd hp hc).1 hch).1

/-- C8: the diff presenter is used only when a file's `changed` flag is
true: for a processed file whose transform reports `changed = false`, no
unified diff is shown and no write of the transformed text occurs,
regardless of the diff-context and dry-run settings. -/
theorem claim_C8_diff_only_when_changed (eng : Engine) (root : Path)
    (cfg : ObfuscateConfig) (format dryRun : Bool) (diffCtx : Option Nat)
    (verbose : Bool) (fs : FS) (hnd : fs.paths.Nodup)
    (p : Path) (hp : p ∈ rsFiles fs root) (c : String) (hc : fs.read p = some c)
    (hch : (process_file eng cfg (p.drop root.length) c).1.2.1 = false) :
    Event.diffShown (p.drop root.length) ∉
      (transform_rust_files eng root cfg format dryRun diffCtx verbose fs).events ∧
    Event.writingMsg p ∉
      (transform_rust_files eng root cfg format dryRun diffCtx verbose fs).events ∧
    (transform_rust_files eng root cfg format dryRun diffCtx verbose fs).fs.read p
      = some c := by
  obtain ⟨h1, h2, h3⟩ := (transform_master eng cfg root format dryRun diffCtx verbose hnd hp hc).1 hch
  exact ⟨h2, h3, h1⟩

/-- C7: a parse failure in a single source file is non-fatal to the
project: the file is reported as skipped (`changed = false` verbose
line), a warning is surfaced, the file is untouched, and
`transform_rust_files` still processes every file and returns `Ok`. -/
theorem claim_C7_parse_failure_nonfatal (eng : Engine) (root : Path)
    (cfg : ObfuscateConfig) (format dryRun : Bool) (diffCtx : Option Nat)
    (fs : FS) (hnd : fs.paths.Nodup)
    (p : Path) (hp : p ∈ rsFiles fs root) (c : String) (hc : fs.read p = some c)
    (heng : eng cfg (p.drop root.length) c = .parseFailure) :
    (transform_rust_files eng root cfg format dryRun diffCtx true fs).err = none ∧
    Event.parseWarning (p.drop root.length) ∈
      (transform_rust_files eng root cfg format dryRun diffCtx true fs).events ∧
    Event.verboseLine (p.drop root.length) false ∈
      (transform_rust_files eng root cfg format dryRun diffCtx true fs).events ∧
    (transform_rust_files eng root cfg format dryRun diffCtx true fs).fs.read p
      = some c ∧
    (∀ q ∈ rsFiles fs root, ∃ b, Event.verboseLine (q.drop root.length) b ∈
      (transform_rust_files eng root cfg format dryRun diffCtx true fs).events) := by
  have hch : (process_file eng cfg (p.drop root.length) c).1.2.1 = false := by
    simp [process_file, heng]
  have hm := transform_master eng cfg root format dryRun diffCtx true hnd hp hc
  refine ⟨transform_err_none eng root cfg format dryRun diffCtx true fs, ?_, ?_,
    ((hm.1 hch).1), ?_⟩
  · apply hm.2.2.1
    simp [process_file, heng]
  · have := hm.2.2.2 rfl
    rw [hch] at this
    exact this
  · intro q hq
    obtain ⟨cq, hcq⟩ := FS.read_isSome_of_mem_paths (mem_rsFiles hq).1
    have hmq := transform_master eng cfg root format dryRun diffCtx true hnd hq hcq
    exact ⟨_, hmq.2.2.2 rfl⟩

/-- C3 as stated is false at this input: an unparsable `Cargo.toml` is a
per-file condition that is not an I/O error, yet `patch_cargo_toml`
raises a manifest-format error instead of continuing and returning `Ok`
(line 99, `content.parse::<DocumentMut>()?`). -/
theorem claim_C3_counterexample :
    (patch_cargo_toml ([] : Path) [((["Cargo.toml"] : Path), "not a manifest")]).err
      = some (.tomlParseErr ["Cargo.toml"]) := rfl

/-- C3 amended: `transform_rust_files` indeed never fails on a per-file
condition and returns `Ok`, but `patch_cargo_toml` is fatal on manifest
format errors: it returns `Ok` only when every walked manifest parses
and, when it declares a package, its dependencies key is patchable as a
table (spec §7 `ManifestFormatError`). -/
theorem claim_C3_amended (eng : Engine) (root : Path) (cfg : ObfuscateConfig)
    (format dryRun : Bool) (diffCtx : Option Nat) (verbose : Bool) (fs : FS)
    (hnd : fs.paths.Nodup) :
    (transform_rust_files eng root cfg format dryRun diffCtx verbose fs).err = none ∧
    ((patch_cargo_toml root fs).err = none →
      ∀ p ∈ manifestFiles fs root, ∃ c d, fs.read p = some c ∧
        parseToml c = some d ∧
        (d.containsKey "package" = true → (patchDoc d).isSome = true)) := by
  refine ⟨transform_err_none eng root cfg format dryRun diffCtx verbose fs, ?_⟩
  intro hok p hp
  obtain ⟨c, hc⟩ := FS.read_isSome_of_mem_paths (mem_manifestFiles hp).1
  obtain ⟨d, hd, himp⟩ := (patch_master hnd hp hc).1 hok
  refine ⟨c, d, hc, hd, fun hpkg => ?_⟩
  obtain ⟨d2, hd2, _⟩ := himp hpkg
  rw [hd2]
  rfl

/-- C1: after a successful `patch_cargo_toml` run, every walked manifest
that parses and declares a `[package]` holds a `[dependencies]` table
binding both required keys, and the raw entry of a key that was already
present is kept verbatim rather than overwritten. -/
theorem claim_C1_patch_inserts_required_deps (root : Path) (fs : FS)
    (hnd : fs.paths.Nodup) (hok : (patch_cargo_toml root fs).err = none)
    (p : Path) (hp : p ∈ manifestFiles fs root)
    (c : String) (hc : fs.read p = some c)
    (d : Doc) (hd : parseToml c = some d)
    (hpkg : d.containsKey "package" = true) :
    ∃ c2 d2, (patch_cargo_toml root fs).fs.read p = some c2 ∧
      parseToml c2 = some d2 ∧
      ∃ s, d2.depsSection? = some s ∧
        s.hasKey "rust_code_obfuscator" = true ∧ s.hasKey "cryptify" = true ∧
        (∀ k r s0, d.depsSection? = some s0 → s0.entryRaw k = some r →
          s.entryRaw k = some r) := by
  obtain ⟨d0, hd0, himp⟩ := (patch_master hnd hp hc).1 hok
  rw [hd] at hd0
  injection hd0 with hd0
  subst hd0
  obtain ⟨d2, hpd, hread⟩ := himp hpkg
  obtain ⟨s, hs, hk1, hk2, hrel⟩ := patchDoc_depsSection hpd
  refine ⟨d2.toText, d2, hread, parseToml_patched hd hpd, s, hs, hk1, hk2, ?_⟩
  intro k r s0 hs0 hent
  rw [hrel s0 hs0]
  exact depsMutation_entryRaw hent

/-- C5: a manifest with no package section is only reported as a skip
and is never written: its bytes are unchanged even when the run later
fails, and on a successful run the skip message is emitted. -/
theorem claim_C5_virtual_manifest_untouched (root : Path) (fs : FS)
    (hnd : fs.paths.Nodup) (p : Path) (hp : p ∈ manifestFiles fs root)
    (c : String) (hc : fs.read p = some c)
    (d : Doc) (hd : parseToml c = some d)
    (hpkg : d.containsKey "package" = false) :
    (patch_cargo_toml root fs).fs.read p = some c ∧
    ((patch_cargo_toml root fs).err = none →
      Event.skipVirtual p ∈ (patch_cargo_toml root fs).events) :=
  (patch_master hnd hp hc).2 d hd hpkg

/-- C4: `patch_cargo_toml` is idempotent: after one successful run, every
patched manifest already holds both dependency keys, so a second run
skips every insert and leaves the whole output byte-identical. -/
theorem claim_C4_patch_idempotent (root : Path) (fs : FS)
    (hnd : fs.paths.Nodup) (hok : (patch_cargo_toml root fs).err = none) :
    (patch_cargo_toml root (patch_cargo_toml root fs).fs).fs
        = (patch_cargo_toml root fs).fs ∧
    (patch_cargo_toml root (patch_cargo_toml root fs).fs).err = none ∧
    (∀ p ∈ manifestFiles (patch_cargo_toml root fs).fs root, ∀ c d,
      (patch_cargo_toml root fs).fs.read p = some c → parseToml c = some d →
      d.containsKey "package" = true →
      ∃ s, d.depsSection? = some s ∧ s.hasKey "rust_code_obfuscator" = true ∧
        s.hasKey "cryptify" = true) := by
  have hM : manifestFiles (patch_cargo_toml root fs).fs root = manifestFiles fs root :=
    manifestFiles_congr root (patch_paths root fs)
  have hfix : ∀ p ∈ manifestFiles fs root, ∃ c d,
      (patch_cargo_toml root fs).fs.read p = some c ∧ parseToml c = some d ∧
      (d.containsKey "package" = false ∨
        (d.containsKey "package" = true ∧ patchDoc d = some d ∧ d.toText = c)) := by
    intro p hp
    obtain ⟨c0, hc0⟩ := FS.read_isSome_of_mem_paths (mem_manifestFiles hp).1
    obtain ⟨d0, hparse0, himp⟩ := (patch_master hnd hp hc0).1 hok
    cases hpkg0 : d0.containsKey "package" with
    | true =>
      obtain ⟨d2, hpd, hread1⟩ := himp hpkg0
      refine ⟨d2.toText, d2, hread1, parseToml_patched hparse0 hpd,
        Or.inr ⟨?_, patchDoc_idem hpd, rfl⟩⟩
      rw [patchDoc_containsKey_package hpd]
      exact hpkg0
    | false =>
      obtain ⟨hread1, _⟩ := (patch_master hnd hp hc0).2 d0 hparse0 hpkg0
      exact ⟨c0, d0, hread1, hparse0, Or.inl hpkg0⟩
  have hfix2 := hM ▸ hfix
  have hmain := patch_fold_fix hfix2 (RunSt.init (patch_cargo_toml root fs).fs) rfl rfl
  refine ⟨hmain.1, hmain.2, ?_⟩
  intro p hp c d hread hparse hpkg
  obtain ⟨c1, d1, hread1, hparse1, hcases⟩ := hfix2 p hp
  rw [hread1] at hread
  injection hread with hread
  subst hread
  rw [hparse1] at hparse
  injection hparse with hparse
  subst hparse
  rcases hcases with hnp | ⟨_, hpd, _⟩
  · rw [hnp] at hpkg
    exact absurd hpkg (by simp)
  · obtain ⟨s, hs, hk1, hk2, _⟩ := patchDoc_depsSection hpd
    exact ⟨s, hs, hk1, hk2⟩

/-- C6 as stated is false at this input: with formatting enabled and
`rustfmt` not installed, `process_project` returns an error raised by
`ensure_rustfmt_installed` (lines 31–34, 130–143), so formatting can
cause `process_project` to fail even though per-file formatter failures
are mere warnings. -/
theorem claim_C6_counterexample :
    (process_project (fun _ _ c => .emitted c) (fun _ c => .ok c) false
      ["p"] ["q"] true ⟨⟨true, none, none, true, none, none⟩, none, none⟩
      false none false []).err = some .rustfmtMissing := rfl

/-- C6 amended: a per-file `rustfmt` spawn failure is recorded as a
warning and `format_rust_files` always returns `Ok`; `format_rust_files`
itself never makes `process_project` fail, but the upfront
`ensure_rustfmt_installed` check does: with formatting enabled and
`rustfmt` unavailable, `process_project` returns an error. -/
theorem claim_C6_amended (fmt : Rustfmt) (root : Path) (fs : FS)
    (hnd : fs.paths.Nodup) :
    (format_rust_files fmt root fs).err = none ∧
    (∀ p ∈ rsFiles fs root, ∀ c, fs.read p = some c → fmt p c = .error () →
      Event.fmtWarning p ∈ (format_rust_files fmt root fs).events) ∧
    (∀ (eng : Engine) (input output : Path) (cfg : ObfuscateConfig)
        (diffCtx : Option Nat) (verbose : Bool) (fs2 : FS),
      (process_project eng fmt false input output true cfg false diffCtx
        verbose fs2).err ≠ none) := by
  refine ⟨format_err_none fmt root fs, ?_, ?_⟩
  · intro p hp c hc hfail
    exact format_master hnd hp hc hfail
  · intro eng input output cfg diffCtx verbose fs2 hcontra
    have hcontra2 : (((transform_rust_files eng output cfg true false diffCtx verbose
        (copy_full_structure fs2 input output)).andThen
          (fun f2 => patch_cargo_toml output f2)).andThen (fun f3 =>
            match ensure_rustfmt_installed false with
            | some e => ⟨f3, [], some e⟩
            | none => format_rust_files fmt output f3)).err = none := hcontra
    have h2 := (andThen_err_none hcontra2).2
    exact absurd h2 (by simp [ensure_rustfmt_installed])

/-- C10: a dry run mutates nothing: with `dry_run` set,
`process_project` leaves every file byte-identical (no copy, no write,
no patch, no formatting), succeeds, and emits no write, patch or
formatter message. -/
theorem claim_C10_dry_run_no_mutation (eng : Engine) (fmt : Rustfmt)
    (inst : Bool) (input output : Path) (format : Bool) (cfg : ObfuscateConfig)
    (diffCtx : Option Nat) (verbose : Bool) (fs : FS) :
    (process_project eng fmt inst input output format cfg true diffCtx
        verbose fs).fs = fs ∧
    (process_project eng fmt inst input output format cfg true diffCtx
        verbose fs).err = none ∧
    ∀ p, Event.writingMsg p ∉ (process_project eng fmt inst input output format
          cfg true diffCtx verbose fs).events ∧
      Event.patchedMsg p ∉ (process_project eng fmt inst input output format
          cfg true diffCtx verbose fs).events ∧
      Event.fmtWarning p ∉ (process_project eng fmt inst input output format
          cfg true diffCtx verbose fs).events := by
  have hred : process_project eng fmt inst input output format cfg true diffCtx
      verbose fs =
      { transform_rust_files eng input cfg false true diffCtx verbose fs with
        events := .dryRunBanner ::
          (transform_rust_files eng input cfg false true diffCtx verbose fs).events } :=
    rfl
  rw [hred]
  refine ⟨transform_dryRun_fs eng input cfg false diffCtx verbose fs,
    transform_err_none eng input cfg false true diffCtx verbose fs, ?_⟩
  intro p
  have hW : Event.writingMsg p ∉
      (transform_rust_files eng input cfg false true diffCtx verbose fs).events := by
    unfold transform_rust_files
    exact foldl_inv (fun st => Event.writingMsg p ∉ st.events)
      (fun st x _ hP hmem => hP (transformStep_dryRun_no_write hmem))
      (RunSt.init fs) (by simp [RunSt.init])
  have hP : Event.patchedMsg p ∉
      (transform_rust_files eng input cfg false true diffCtx verbose fs).events := by
    unfold transform_rust_files
    refine foldl_inv (fun st => Event.patchedMsg p ∉ st.events)
      (fun st x _ hP hmem => ?_) (RunSt.init fs) (by simp [RunSt.init])
    rcases transformStep_event_origin hmem with h | ⟨b, h⟩ | h | h | h
    · exact hP h
    all_goals simp at h
  have hF : Event.fmtWarning p ∉
      (transform_rust_files eng input cfg false true diffCtx verbose fs).events := by
    unfold transform_rust_files
    refine foldl_inv (fun st => Event.fmtWarning p ∉ st.events)
      (fun st x _ hP hmem => ?_) (RunSt.init fs) (by simp [RunSt.init])
    rcases transformStep_event_origin hmem with h | ⟨b, h⟩ | h | h | h
    · exact hP h
    all_goals simp at h
  refine ⟨?_, ?_, ?_⟩
  · intro hmem
    rcases List.mem_cons.1 hmem with h | h
    · exact absurd h (by simp)
    · exact hW h
  · intro hmem
    rcases List.mem_cons.1 hmem with h | h
    · exact absurd h (by simp)
    · exact hP h
  · intro hmem
    rcases List.mem_cons.1 hmem with h | h
    · exact absurd h (by simp)
    · exact hF h

/-- C2: in a non-dry run the steps are sequenced copy → transform →
patch → (optional) format; the copy lands every input-tree file verbatim
at its output-tree location before any transform ever sees it, and the
transform/patch/format steps mutate only the output tree, so everything
else — in particular the whole input tree — is byte-identical after the
run. -/
theorem claim_C2_pipeline_order (eng : Engine) (fmt : Rustfmt) (inst : Bool)
    (input output : Path) (format : Bool) (cfg : ObfuscateConfig)
    (diffCtx : Option Nat) (verbose : Bool) (fs : FS)
    (hnd : fs.paths.Nodup)
    (hdisj : startsWith input output = false ∧ startsWith output input = false) :
    process_project eng fmt inst input output format cfg false diffCtx verbose fs =
      (if format then
        ((transform_rust_files eng output cfg format false diffCtx verbose
            (copy_full_structure fs input output)).andThen
          (fun f2 => patch_cargo_toml output f2)).andThen (fun f3 =>
            match ensure_rustfmt_installed inst with
            | some e => ⟨f3, [], some e⟩
            | none => format_rust_files fmt output f3)
       else (transform_rust_files eng output cfg format false diffCtx verbose
            (copy_full_structure fs input output)).andThen
          (fun f2 => patch_cargo_toml output f2)) ∧
    (∀ p c, startsWith input p = true → fs.read p = some c →
      (copy_full_structure fs input output).read (output ++ p.drop input.length)
        = some c) ∧
    (∀ q, startsWith output q = false →
      (process_project eng fmt inst input output format cfg false diffCtx
        verbose fs).fs.read q = fs.read q) ∧
    (∀ p, startsWith input p = true →
      (process_project eng fmt inst input output format cfg false diffCtx
        verbose fs).fs.read p = fs.read p) := by
  have hframe : ∀ q, startsWith output q = false →
      (process_project eng fmt inst input output format cfg false diffCtx
        verbose fs).fs.read q = fs.read q := by
    intro q hq
    have hg : ∀ fsx : FS, ((fun f3 =>
        match ensure_rustfmt_installed inst with
        | some e => (⟨f3, [], some e⟩ : RunSt)
        | none => format_rust_files fmt output f3) fsx).fs.read q = fsx.read q := by
      intro fsx
      cases inst with
      | false => rfl
      | true => exact format_read_not_under hq
    have hpg : ∀ fsx : FS, (patch_cargo_toml output fsx).fs.read q = fsx.read q :=
      fun fsx => patch_read_not_under hq
    have htr : (transform_rust_files eng output cfg format false diffCtx verbose
        (copy_full_structure fs input output)).fs.read q
        = (copy_full_structure fs input output).read q :=
      transform_read_not_under hq
    have hcp : (copy_full_structure fs input output).read q = fs.read q :=
      copy_read_not_under hq
    cases format with
    | false =>
      show ((transform_rust_files eng output cfg false false diffCtx verbose
          (copy_full_structure fs input output)).andThen
            (fun f2 => patch_cargo_toml output f2)).fs.read q = fs.read q
      rw [andThen_fs_read hpg]
      exact htr.trans hcp
    | true =>
      show (((transform_rust_files eng output cfg true false diffCtx verbose
          (copy_full_structure fs input output)).andThen
            (fun f2 => patch_cargo_toml output f2)).andThen (fun f3 =>
              match ensure_rustfmt_installed inst with
              | some e => ⟨f3, [], some e⟩
              | none => format_rust_files fmt output f3)).fs.read q = fs.read q
      rw [andThen_fs_read hg, andThen_fs_read hpg]
      exact htr.trans hcp
  refine ⟨by cases format <;> rfl, ?_, hframe, ?_⟩
  · intro p c hp hc
    exact copy_read_target hnd hp hc
  · intro p hp
    apply hframe
    cases hb : startsWith output p with
    | false => rfl
    | true =>
      rcases startsWith_total_of_common hp hb with h | h
      · rw [h] at hdisj; exact absurd hdisj.1 (by simp)
      · rw [h] at hdisj; exact absurd hdisj.2 (by simp)

/-! ## Concrete instances for the witnesses -/

/-- A concrete configuration (the one used by the source's tests). -/
def cfgW : ObfuscateConfig := ⟨⟨true, none, none, true, none, none⟩, none, none⟩

/-- An engine that emits every file unchanged. -/
def engIdW : Engine := fun _ _ c => .emitted c

/-- An engine that fails to parse every file. -/
def engFailW : Engine := fun _ _ _ => .parseFailure

/-- A `rustfmt` oracle that always fails to spawn. -/
def fmtFailW : Rustfmt := fun _ _ => .error ()

/-- A concrete project root. -/
def rootW : Path := ["proj"]

/-- A concrete package manifest with an existing dependency. -/
def manifestW : String := "[package]\nname = \"demo\"\n\n[dependencies]\nserde = \"1.0\""

/-- The parsed form of `manifestW`. -/
def docW : Doc :=
  ⟨[], [⟨"[package]".data, "package",
          [.kvline "name = \"demo\"".data "name", .trivia []]⟩,
        ⟨"[dependencies]".data, "dependencies",
          [.kvline "serde = \"1.0\"".data "serde"]⟩]⟩

/-- A concrete workspace-root manifest without a package section. -/
def wsManifestW : String := "[workspace]\nmembers = [\"a\"]"

/-- The parsed form of `wsManifestW`. -/
def wsDocW : Doc :=
  ⟨[], [⟨"[workspace]".data, "workspace",
          [.kvline "members = [\"a\"]".data "members"]⟩]⟩

/-- A concrete project: one source file and one manifest. -/
def fsW : FS :=
  [(["proj", "main.rs"], "fn main() {}"), (["proj", "Cargo.toml"], manifestW)]

/-- A concrete project holding only a workspace-root manifest. -/
def fsWsW : FS := [(["proj", "Cargo.toml"], wsManifestW)]

/-! ## Witnesses -/

/-- Witness for C1 on the concrete project `fsW`. -/
theorem claim_C1_witness :
    ((patch_cargo_toml rootW fsW).err = none ∧
      docW.containsKey "package" = true) ∧
    ∃ c2 d2, (patch_cargo_toml rootW fsW).fs.read ["proj", "Cargo.toml"] = some c2 ∧
      parseToml c2 = some d2 ∧
      ∃ s, d2.depsSection? = some s ∧
        s.hasKey "rust_code_obfuscator" = true ∧ s.hasKey "cryptify" = true ∧
        (∀ k r s0, docW.depsSection? = some s0 → s0.entryRaw k = some r →
          s.entryRaw k = some r) :=
  ⟨⟨by decide, by decide⟩,
    claim_C1_patch_inserts_required_deps rootW fsW (by decide) (by decide)
      ["proj", "Cargo.toml"] (by decide) manifestW (by decide) docW (by decide)
      (by decide)⟩

/-- Witness for C2 on the concrete project `fsW`. -/
theorem claim_C2_witness :
    (fsW.paths.Nodup ∧ startsWith ["proj"] ["out"] = false) ∧
    (∀ p c, startsWith ["proj"] p = true → fsW.read p = some c →
      (copy_full_structure fsW ["proj"] ["out"]).read
        (["out"] ++ p.drop (["proj"] : Path).length) = some c) ∧
    (∀ q, startsWith ["out"] q = false →
      (process_project engIdW fmtFailW true ["proj"] ["out"] true cfgW false
        none false fsW).fs.read q = fsW.read q) ∧
    (∀ p, startsWith ["proj"] p = true →
      (process_project engIdW fmtFailW true ["proj"] ["out"] true cfgW false
        none false fsW).fs.read p = fsW.read p) :=
  ⟨⟨by decide, by decide⟩,
    (claim_C2_pipeline_order engIdW fmtFailW true ["proj"] ["out"] true cfgW
      none false fsW (by decide) ⟨by decide, by decide⟩).2⟩

/-- Witness for C3 amended on the concrete project `fsW`. -/
theorem claim_C3_amended_witness :
    fsW.paths.Nodup ∧
    ((transform_rust_files engIdW rootW cfgW false false none false fsW).err = none ∧
      ((patch_cargo_toml rootW fsW).err = none →
        ∀ p ∈ manifestFiles fsW rootW, ∃ c d, fsW.read p = some c ∧
          parseToml c = some d ∧
          (d.containsKey "package" = true → (patchDoc d).isSome = true))) :=
  ⟨by decide,
    claim_C3_amended engIdW rootW cfgW false false none false fsW (by decide)⟩

/-- Witness for C4 on the concrete project `fsW`. -/
theorem claim_C4_witness :
    (patch_cargo_toml rootW fsW).err = none ∧
    ((patch_cargo_toml rootW (patch_cargo_toml rootW fsW).fs).fs
        = (patch_cargo_toml rootW fsW).fs ∧
      (patch_cargo_toml rootW (patch_cargo_toml rootW fsW).fs).err = none ∧
      (∀ p ∈ manifestFiles (patch_cargo_toml rootW fsW).fs rootW, ∀ c d,
        (patch_cargo_toml rootW fsW).fs.read p = some c → parseToml c = some d →
        d.containsKey "package" = true →
        ∃ s, d.depsSection? = some s ∧ s.hasKey "rust_code_obfuscator" = true ∧
          s.hasKey "cryptify" = true)) :=
  ⟨by decide, claim_C4_patch_idempotent rootW fsW (by decide) (by decide)⟩

/-- Witness for C5 on the concrete workspace-root project `fsWsW`. -/
theorem claim_C5_witness :
    (wsDocW.containsKey "package" = false ∧ parseToml wsManifestW = some wsDocW) ∧
    ((patch_cargo_toml rootW fsWsW).fs.read ["proj", "Cargo.toml"]
        = some wsManifestW ∧
      ((patch_cargo_toml rootW fsWsW).err = none →
        Event.skipVirtual ["proj", "Cargo.toml"] ∈
          (patch_cargo_toml rootW fsWsW).events)) :=
  ⟨⟨by decide, by decide⟩,
    claim_C5_virtual_manifest_untouched rootW fsWsW (by decide)
      ["proj", "Cargo.toml"] (by decide) wsManifestW (by decide) wsDocW
      (by decide) (by decide)⟩

/-- Witness for C6 amended on the concrete project `fsW`. -/
theorem claim_C6_amended_witness :
    fsW.paths.Nodup ∧
    ((format_rust_files fmtFailW rootW fsW).err = none ∧
      (∀ p ∈ rsFiles fsW rootW, ∀ c, fsW.read p = some c →
        fmtFailW p c = .error () →
        Event.fmtWarning p ∈ (format_rust_files fmtFailW rootW fsW).events) ∧
      (∀ (eng : Engine) (input output : Path) (cfg : ObfuscateConfig)
          (diffCtx : Option Nat) (verbose : Bool) (fs2 : FS),
        (process_project eng fmtFailW false input output true cfg false diffCtx
          verbose fs2).err ≠ none)) :=
  ⟨by decide, claim_C6_amended fmtFailW rootW fsW (by decide)⟩

/-- Witness for C7 on the concrete project `fsW` with a failing engine. -/
theorem claim_C7_witness :
    (engFailW cfgW ((["proj", "main.rs"] : Path).drop (rootW : Path).length)
        "fn main() {}" = .parseFailure ∧
      (["proj", "main.rs"] : Path) ∈ rsFiles fsW rootW) ∧
    ((transform_rust_files engFailW rootW cfgW false false none true fsW).err
        = none ∧
      Event.parseWarning ((["proj", "main.rs"] : Path).drop (rootW : Path).length) ∈
        (transform_rust_files engFailW rootW cfgW false false none true fsW).events ∧
      Event.verboseLine ((["proj", "main.rs"] : Path).drop (rootW : Path).length)
          false ∈
        (transform_rust_files engFailW rootW cfgW false false none true fsW).events ∧
      (transform_rust_files engFailW rootW cfgW false false none true
          fsW).fs.read ["proj", "main.rs"] = some "fn main() {}" ∧
      (∀ q ∈ rsFiles fsW rootW, ∃ b,
        Event.verboseLine (q.drop (rootW : Path).length) b ∈
          (transform_rust_files engFailW rootW cfgW false false none true
            fsW).events)) :=
  ⟨⟨rfl, by decide⟩,
    claim_C7_parse_failure_nonfatal engFailW rootW cfgW false false none fsW
      (by decide) ["proj", "main.rs"] (by decide) "fn main() {}" (by decide) rfl⟩

/-- Witness for C8 on the concrete project `fsW` with the identity
engine, whose emitted text always equals the original. -/
theorem claim_C8_witness :
    (process_file engIdW cfgW ((["proj", "main.rs"] : Path).drop
        (rootW : Path).length) "fn main() {}").1.2.1 = false ∧
    (Event.diffShown ((["proj", "main.rs"] : Path).drop (rootW : Path).length) ∉
      (transform_rust_files engIdW rootW cfgW false false (some 3) true
        fsW).events ∧
    Event.writingMsg ["proj", "main.rs"] ∉
      (transform_rust_files engIdW rootW cfgW false false (some 3) true
        fsW).events ∧
    (transform_rust_files engIdW rootW cfgW false false (some 3) true
        fsW).fs.read ["proj", "main.rs"] = some "fn main() {}") :=
  ⟨by decide,
    claim_C8_diff_only_when_changed engIdW rootW cfgW false false (some 3) true
      fsW (by decide) ["proj", "main.rs"] (by decide) "fn main() {}" (by decide)
      (by decide)⟩

/-- Witness for C9 on the concrete project `fsW`. -/
theorem claim_C9_witness :
    fsW.paths.Nodup ∧
    ((isRustPath ["proj", "README.md"] = false →
      (transform_rust_files engIdW rootW cfgW false false none false
        fsW).fs.read ["proj", "README.md"] = fsW.read ["proj", "README.md"]) ∧
    (∀ c, fsW.read ["proj", "README.md"] = some c →
      (["proj", "README.md"] : Path) ∈ rsFiles fsW rootW →
      (process_file engIdW cfgW ((["proj", "README.md"] : Path).drop
        (rootW : Path).length) c).1.2.1 = false →
      (transform_rust_files engIdW rootW cfgW false false none false
        fsW).fs.read ["proj", "README.md"] = some c)) :=
  ⟨by decide,
    claim_C9_transform_touches_only_changed_rs engIdW rootW cfgW false false
      none false fsW (by decide) ["proj", "README.md"]⟩
